import Mathlib

/-!
Verification development for the IWYU VS Code extension ("tsdb2/vscode-iwyu").

The embedding follows `src/analyzer.ts` (the version whose `_runInternal`
carries a correct-finding branch and whose publish loop deletes empty
diagnostic sets) and `src/code_action_provider.ts`.

JavaScript regular expressions are embedded as deterministic scanners over
`List Char`.  Every regex used by the code has the property that each greedy
quantifier is over a character class that excludes the character required
immediately after it (for example `[^:]+` followed by `:`), so the
backtracking JS engine and a maximal-munch scanner accept exactly the same
strings with the same capture groups; where backtracking *is* observable
(the prologue pattern of the code-action provider, the raw-string token
pattern) the scanner enumerates the candidate splits in the engine's
preference order.
-/

namespace Iwyu

/-- The apostrophe character, kept out of string literals. -/
def aposC : Char := Char.ofNat 39

/-- The apostrophe as a one-character string. -/
def aposS : String := String.singleton aposC

/-- JavaScript `\s`: WhiteSpace plus LineTerminator code points. -/
def jsSpace (c : Char) : Bool :=
  c = ' ' || c = '\t' || c = '\n' || c = Char.ofNat 11 || c = Char.ofNat 12 ||
  c = '\r' || c = Char.ofNat 160 || c = Char.ofNat 0x1680 ||
  (0x2000 ≤ c.toNat && c.toNat ≤ 0x200a) ||
  c = Char.ofNat 0x2028 || c = Char.ofNat 0x2029 || c = Char.ofNat 0x202f ||
  c = Char.ofNat 0x205f || c = Char.ofNat 0x3000 || c = Char.ofNat 0xfeff

/-- JavaScript `.` (no `s` flag): any character except a line terminator. -/
def dotChar (c : Char) : Bool :=
  !(c = '\n' || c = '\r' || c = Char.ofNat 0x2028 || c = Char.ofNat 0x2029)

/-- Regex class `[A-Za-z]`. -/
def asciiAlpha (c : Char) : Bool :=
  ('A' ≤ c && c ≤ 'Z') || ('a' ≤ c && c ≤ 'z')

/-- Regex class `[A-Za-z_]`, the first character of a C identifier. -/
def identStart (c : Char) : Bool := asciiAlpha c || c = '_'

/-- Regex class `[A-Za-z0-9_]`, a later character of a C identifier. -/
def identChar (c : Char) : Bool := asciiAlpha c || c.isDigit || c = '_'

/-- Numeric value of a digit string, as computed by `parseInt(s, 10)`. -/
def natOfDigits (cs : List Char) : Nat :=
  cs.foldl (fun a c => 10 * a + (c.toNat - 48)) 0

/-- `vscode.Uri.joinPath(root.uri, path).toString()`: the external editor
joins the workspace root with the report-relative path; modelled as plain
path concatenation. -/
def mkUri (root relPath : String) : String := root ++ "/" ++ relPath

/-- Match a literal character sequence at the front of the input and return
the rest, `none` on mismatch. -/
def expectSeq : List Char → List Char → Option (List Char)
  | [], cs => some cs
  | _ :: _, [] => none
  | p :: ps, c :: cs => if p = c then expectSeq ps cs else none

/-- Capture group `("[^"]+"|<[^>]+>)` (nonempty interior): returns the spec
with its delimiters, and the rest of the input. -/
def parseIncSpec : List Char → Option (List Char × List Char)
  | '"' :: r =>
    if (r.takeWhile (· ≠ '"')).isEmpty then none else
    match r.dropWhile (· ≠ '"') with
    | '"' :: rest => some ('"' :: (r.takeWhile (· ≠ '"') ++ ['"']), rest)
    | _ => none
  | '<' :: r =>
    if (r.takeWhile (· ≠ '>')).isEmpty then none else
    match r.dropWhile (· ≠ '>') with
    | '>' :: rest => some ('<' :: (r.takeWhile (· ≠ '>') ++ ['>']), rest)
    | _ => none
  | _ => none

/-- Literal `: warning: ` of the add-finding regex. -/
def warnLit : String := ": warning: "

/-- Literal ` is defined in ` of the add-finding regex and of the
code-action message grammar. -/
def definedLit : String := " is defined in "

/-- Literal `, which isn`&apos;`t directly #included` — the tail of the
add-finding regex up to (excluding) its final `.`, which in the regex is the
any-character `.` metacharacter. -/
def tailLit : String := ", which isn" ++ aposS ++ "t directly #included"

/-- The full message tail as the analyzer renders it into diagnostics. -/
def msgTail : String := tailLit ++ "."

/-- One parsed add finding:
`<path>:<line>:<col>: warning: <symbol> is defined in <include>, …`. -/
structure AddM where
  path : String
  row : Nat
  col : Nat
  symbol : String
  includeSpec : String
deriving DecidableEq

/-- The regex of `_processAddFinding`:
`^([^:]+):(\d+):(\d+): warning: ([^\s]+) is defined in ("[^"]+"|<[^>]+>), which isn't directly #included.$`
(the final `.` is the any-character metacharacter). -/
def parseAddFinding (line : String) : Option AddM :=
  let cs := line.toList
  let p := cs.takeWhile (· ≠ ':')
  if p.isEmpty then none else
  match cs.dropWhile (· ≠ ':') with
  | ':' :: r1 =>
    let row := r1.takeWhile Char.isDigit
    if row.isEmpty then none else
    match r1.dropWhile Char.isDigit with
    | ':' :: r2 =>
      let col := r2.takeWhile Char.isDigit
      if col.isEmpty then none else
      match expectSeq warnLit.toList (r2.dropWhile Char.isDigit) with
      | some r3 =>
        let sym := r3.takeWhile (fun c => !jsSpace c)
        if sym.isEmpty then none else
        match expectSeq definedLit.toList (r3.dropWhile (fun c => !jsSpace c)) with
        | some r4 =>
          match parseIncSpec r4 with
          | some (spec, r5) =>
            match expectSeq tailLit.toList r5 with
            | some [d] =>
              if dotChar d then
                some ⟨String.mk p, natOfDigits row, natOfDigits col,
                      String.mk sym, String.mk spec⟩
              else none
            | _ => none
          | none => none
        | none => none
      | none => none
    | _ => none
  | _ => none

/-- Suffix of the correct-finding regex
`^\((.*) has correct #includes\/fwd-decls\)$`. -/
def corSuffix : String := " has correct #includes/fwd-decls)"

/-- The regex of `_processCorrectFinding`.  The whole line must be
`(` capture `)`-suffix; the greedy `(.*)` capture is forced by the end
anchor and consists of `.`-class characters only. -/
def parseCorrectFinding (line : String) : Option String :=
  match line.toList with
  | c :: rest =>
    if c = '(' then
      match expectSeq corSuffix.toList.reverse rest.reverse with
      | some midRev =>
        if midRev.reverse.all dotChar then some (String.mk midRev.reverse) else none
      | none => none
    else none
  | [] => none

/-- Suffix of the removal-block header regex `^(.*) should remove these lines:$`. -/
def removeSuffix : String := " should remove these lines:"

/-- The removal-block header regex of `_runInternal`. -/
def parseRemoveHeader (line : String) : Option String :=
  match expectSeq removeSuffix.toList.reverse line.toList.reverse with
  | some midRev =>
    if midRev.reverse.all dotChar then some (String.mk midRev.reverse) else none
  | none => none

/-- One parsed removal entry `- <include-directive> // lines <start>-<end>`. -/
structure RemM where
  includeText : String
  includeSpec : String
  rowStart : Nat
  rowEnd : Nat
deriving DecidableEq

/-- The regex of `_processRemoveFinding`:
`^- (#include\s*("[^"]+"|<[^>]+>))\s*\/\/ lines (\d+)-(\d+)` — not anchored
at the end, so arbitrary trailing text is allowed. -/
def parseRemoveFinding (line : String) : Option RemM :=
  match expectSeq "- #include".toList line.toList with
  | some r1 =>
    let ws := r1.takeWhile jsSpace
    match parseIncSpec (r1.dropWhile jsSpace) with
    | some (spec, r2) =>
      match expectSeq "// lines ".toList (r2.dropWhile jsSpace) with
      | some r3 =>
        let s := r3.takeWhile Char.isDigit
        if s.isEmpty then none else
        match r3.dropWhile Char.isDigit with
        | '-' :: r4 =>
          let e := r4.takeWhile Char.isDigit
          if e.isEmpty then none else
          some ⟨String.mk ("#include".toList ++ ws ++ spec), String.mk spec,
                natOfDigits s, natOfDigits e⟩
        | _ => none
      | none => none
    | none => none
  | none => none

/-- An editor diagnostic: range, message, severity (1 = Warning), source tag
and kind code, as built by the analyzer. -/
structure Diagnostic where
  startLine : Int
  startChar : Int
  endLine : Int
  endChar : Int
  message : String
  severity : Nat
  source : String
  code : String
deriving DecidableEq

/-- Token pattern `^[0-9]*\.[0-9]+` (floating point number). -/
def tokFloat (s : List Char) : Option Nat :=
  let d1 := s.takeWhile Char.isDigit
  match s.dropWhile Char.isDigit with
  | '.' :: r =>
    let d2 := r.takeWhile Char.isDigit
    if d2.isEmpty then none else some (d1.length + 1 + d2.length)
  | _ => none

/-- Regex class `[0-9A-Fa-f]`. -/
def hexDigit (c : Char) : Bool :=
  c.isDigit || ('A' ≤ c && c ≤ 'F') || ('a' ≤ c && c ≤ 'f')

/-- Regex class `[ULul]` (integer literal suffix characters). -/
def intSuffixChar (c : Char) : Bool :=
  c = 'U' || c = 'L' || c = 'u' || c = 'l'

/-- Token pattern `^0[Xx][0-9A-Fa-f]+[ULul]*` (hex number). -/
def tokHex (s : List Char) : Option Nat :=
  match s with
  | '0' :: x :: r =>
    if x = 'X' || x = 'x' then
      let h := r.takeWhile hexDigit
      if h.isEmpty then none else
      some (2 + h.length + ((r.dropWhile hexDigit).takeWhile intSuffixChar).length)
    else none
  | _ => none

/-- Token pattern `^0[Bb][01]+[ULul]*` (binary number). -/
def tokBin (s : List Char) : Option Nat :=
  match s with
  | '0' :: b :: r =>
    if b = 'B' || b = 'b' then
      let h := r.takeWhile (fun c => c = '0' || c = '1')
      if h.isEmpty then none else
      some (2 + h.length +
        ((r.dropWhile (fun c => c = '0' || c = '1')).takeWhile intSuffixChar).length)
    else none
  | _ => none

/-- Token pattern `^[0-9]+[ULul]*` (integer number). -/
def tokInt (s : List Char) : Option Nat :=
  let d := s.takeWhile Char.isDigit
  if d.isEmpty then none else
  some (d.length + ((s.dropWhile Char.isDigit).takeWhile intSuffixChar).length)

/-- Token patterns `^'(?:[^'])*'` and `^"(?:[^"]|\\")*"` (character and
string literals).  The `\\"` alternative of the string pattern is
unreachable: the engine prefers `[^"]` (which accepts the backslash alone),
closing at the first quote, and when no closing quote exists the `\\"` unit
would need a quote that is not there, so both patterns reduce to
"delimiter, longest run of non-delimiters, delimiter". -/
def tokDelim (delim : Char) (s : List Char) : Option Nat :=
  match s with
  | c :: r =>
    if c = delim then
      let inner := r.takeWhile (· ≠ delim)
      match r.dropWhile (· ≠ delim) with
      | _ :: _ => some (inner.length + 2)
      | [] => none
    else none
  | [] => none

/-- Token pattern `^[Rr]"[A-Za-z]*\(.*\)[A-Za-z]*"` (raw string literal).
The greedy `.*` backtracks from the end of the line, so the engine accepts
at the rightmost split point where `)` then letters then `"` match; the
candidate splits are tried in that order. -/
def tokRaw (s : List Char) : Option Nat :=
  match s with
  | c0 :: '"' :: r =>
    if c0 = 'R' || c0 = 'r' then
      let letts := r.takeWhile asciiAlpha
      match r.dropWhile asciiAlpha with
      | '(' :: r2 =>
        let region := r2.takeWhile dotChar
        (List.range (region.length + 1)).reverse.findSome? fun k =>
          match r2.drop k with
          | ')' :: r4 =>
            let l2 := r4.takeWhile asciiAlpha
            match r4.dropWhile asciiAlpha with
            | '"' :: _ => some (2 + letts.length + 1 + k + 1 + l2.length + 1)
            | _ => none
          | _ => none
      | _ => none
    else none
  | _ => none

/-- Token pattern `^[A-Za-z_][A-Za-z0-9_]*` (identifier or keyword). -/
def tokIdent (s : List Char) : Option Nat :=
  match s with
  | c :: r => if identStart c then some (1 + (r.takeWhile identChar).length) else none
  | [] => none

/-- `TOKEN_PATTERNS`, tried in order; the first match wins. -/
def tokenLen (s : List Char) : Option Nat :=
  (tokFloat s).orElse fun _ => (tokHex s).orElse fun _ => (tokBin s).orElse fun _ =>
  (tokInt s).orElse fun _ => (tokDelim aposC s).orElse fun _ =>
  (tokDelim '"' s).orElse fun _ => (tokRaw s).orElse fun _ => tokIdent s

/-- Split a document into its lines at `\n` (the separator removed); the
result is never empty. -/
def splitLines (cs : List Char) : List (List Char) :=
  match cs with
  | [] => [[]]
  | c :: rest =>
    if c = '\n' then [] :: splitLines rest
    else
      match splitLines rest with
      | l :: ls => (c :: l) :: ls
      | [] => [[c]]

/-- `document.offsetAt(position)` of the editor host: positions are clamped
to the document (line to `[0, lineCount)`, character to the line length) and
converted to a character offset; lines are separated by `\n`. -/
def offsetAt (docText : String) (line ch : Int) : Nat :=
  let ls := splitLines docText.toList
  let li : Nat := (min (max line 0) ((ls.length : Int) - 1)).toNat
  let lineLen : Nat := ((ls.drop li).headD []).length
  let chN : Nat := (min (max ch 0) (lineLen : Int)).toNat
  (ls.take li).foldl (fun a l => a + l.length + 1) 0 + chN

/-- `_getTokenRange`: the range starts at the reported position and spans
the token re-derived from the document text there, or a single character
when no token pattern matches. -/
def getTokenRange (docText : String) (line ch : Int) : (Int × Int) × (Int × Int) :=
  match tokenLen (docText.toList.drop (offsetAt docText line ch)) with
  | some n => ((line, ch), (line, ch + (n : Int)))
  | none => ((line, ch), (line, ch + 1))

/-- The diagnostic built by `_processAddFinding` (1-based report row/column
converted to 0-based). -/
def mkAddDiag (docText : String) (a : AddM) : Diagnostic :=
  let r := getTokenRange docText ((a.row : Int) - 1) ((a.col : Int) - 1)
  { startLine := r.1.1, startChar := r.1.2, endLine := r.2.1, endChar := r.2.2,
    message := a.symbol ++ definedLit ++ a.includeSpec ++ msgTail,
    severity := 1, source := "iwyu", code := "add" }

/-- The diagnostic built by `_processRemoveFinding`: anchored at 0-based
line `start - 1`, column 0, spanning the include text; the reported end
line does not enter the diagnostic. -/
def mkRemoveDiag (r : RemM) : Diagnostic :=
  { startLine := (r.rowStart : Int) - 1, startChar := 0,
    endLine := (r.rowStart : Int) - 1, endChar := (r.includeText.length : Int),
    message := "Unused #include " ++ r.includeSpec ++ ".",
    severity := 1, source := "iwyu", code := "remove" }

/-- `DiagnosticsByUri`: a JS object used as an insertion-ordered map from
file identity to its accumulated diagnostics. -/
abbrev FMap := List (String × List Diagnostic)

/-- Property access `m[uri]` (first — and only — entry with that key). -/
def fmLookup : FMap → String → Option (List Diagnostic)
  | [], _ => none
  | (k, w) :: t, u => if k = u then some w else fmLookup t u

/-- Property assignment `m[uri] = v`: overwrites in place, or appends a new
key in insertion order. -/
def fmSet : FMap → String → List Diagnostic → FMap
  | [], u, v => [(u, v)]
  | (k, w) :: t, u, v => if k = u then (k, v) :: t else (k, w) :: fmSet t u v

/-- `m[uri].push(d)` (creating `[d]` when the key is absent). -/
def fmPush : FMap → String → Diagnostic → FMap
  | [], u, d => [(u, [d])]
  | (k, w) :: t, u, d => if k = u then (k, w ++ [d]) :: t else (k, w) :: fmPush t u d

/-- `collection.delete(uri)` on the published diagnostics store. -/
def fmErase : FMap → String → FMap
  | [], _ => []
  | (k, w) :: t, u => if k = u then fmErase t u else (k, w) :: fmErase t u

/-- Scanner state of `_runInternal`'s report loop: either scanning at top
level, or inside the removal block opened for a file identity (the inner
`for (i++; i < lines.length && lines[i] !== ''; i++)` loop). -/
inductive Mode where
  | scanning : Mode
  | inBlock : String → Mode
deriving DecidableEq

/-- One iteration of `_runInternal`'s report loop, acting on one line.
At top level the line is tried against the correct-finding, add-finding and
removal-header grammars in that order; a removal header ensures the file
has an entry (`if (!diagnostics[uri]) diagnostics[uri] = []`) and enters the
block; inside a block a blank line returns to scanning and any other line
appends one diagnostic when it matches the removal-entry grammar and is
ignored otherwise. -/
def stepLine (root docText : String) (st : FMap × Mode) (l : String) : FMap × Mode :=
  match st.2 with
  | Mode.scanning =>
    match parseCorrectFinding l with
    | some p => (fmSet st.1 (mkUri root p) [], Mode.scanning)
    | none =>
      match parseAddFinding l with
      | some a => (fmPush st.1 (mkUri root a.path) (mkAddDiag docText a), Mode.scanning)
      | none =>
        match parseRemoveHeader l with
        | some p =>
          let uri := mkUri root p
          ((if (fmLookup st.1 uri).isSome then st.1 else fmSet st.1 uri []),
           Mode.inBlock uri)
        | none => (st.1, Mode.scanning)
  | Mode.inBlock uri =>
    if l = "" then (st.1, Mode.scanning)
    else
      match parseRemoveFinding l with
      | some r => (fmPush st.1 uri (mkRemoveDiag r), Mode.inBlock uri)
      | none => (st.1, Mode.inBlock uri)

/-- The report loop over all lines. -/
def scanReport (root docText : String) (st : FMap × Mode) (lines : List String) :
    FMap × Mode :=
  lines.foldl (stepLine root docText) st

/-- The findings map `_runInternal` builds from the tool's standard output
(already split at newlines). -/
def parseReport (root docText : String) (lines : List String) : FMap :=
  (scanReport root docText ([], Mode.scanning) lines).1

/-- The publish loop of `_runInternal`: for each file identity in the
findings map, a nonempty list replaces the published set and an empty list
deletes the entry from the diagnostics collection. -/
def publish (store : FMap) (m : FMap) : FMap :=
  m.foldl (fun st e => if e.2.length > 0 then fmSet st e.1 e.2 else fmErase st e.1) store

/-- Per-document scheduler state: the `_lastRevision` cache ("the last
analyzed content of our document"); a fresh analyzer starts with `""`. -/
structure RunState where
  lastRevision : String
deriving DecidableEq

/-- `run(force)`: when `force` is set or the document text differs from
`_lastRevision`, the code first assigns `this._lastRevision = revision` and
only then awaits `_runInternal`, whose failure (rejected `exec` promise)
propagates to the caller without undoing the assignment.  The result is the
post-state, whether the pipeline was invoked, and whether the call raised
(`runnerFails` is the outcome of the external command when invoked). -/
def run (s : RunState) (force : Bool) (text : String) (runnerFails : Bool) :
    RunState × Bool × Bool :=
  if force || text ≠ s.lastRevision then (⟨text⟩, true, runnerFails) else (s, false, false)

/-- Per-document debounce state for `runIn`: the `_lastRevision` cache and
whether a timer is pending.  `_debounce` clears any previous timer (whose
`runIn` invocation is then suspended forever, since its promise never
resolves) before arming a new one. -/
structure SchedState where
  lastRevision : String
  pending : Bool
deriving DecidableEq

/-- One `runIn` call observed with the document text `text`: the revision
check happens before the debounce, so an unchanged document skips without
touching any pending timer, while a changed document updates
`_lastRevision` and replaces the pending timer with its own. -/
def runInStep (s : SchedState) (text : String) : SchedState :=
  if text ≠ s.lastRevision then ⟨text, true⟩ else s

/-- A burst of `runIn` calls, each arriving before any timer fires. -/
def runInCalls (s : SchedState) (texts : List String) : SchedState :=
  texts.foldl runInStep s

/-- Number of pipeline invocations that eventually happen once the burst is
over: exactly the surviving pending timer fires and runs `_runInternal`
(a cancelled timer's promise never resolves, so its call never proceeds). -/
def eventualInvocations (s : SchedState) : Nat :=
  if s.pending then 1 else 0

/-- The quick-fix action synthesized for an `add` diagnostic: a label and a
single text insertion. -/
structure AddAction where
  title : String
  insertOffset : Nat
  insertText : String
deriving DecidableEq

/-- The quick-fix action synthesized for a `remove` diagnostic: a label and
a single range deletion. -/
structure RemoveAction where
  title : String
  delStartLine : Int
  delStartChar : Int
  delEndLine : Int
  delEndChar : Int
deriving DecidableEq

/-- The unanchored message grammar of `createQuickFixForAddition`:
`/ is defined in ("[^"]+"|<[^>]+>), which isn't directly #included.$/`
tried at one start position. -/
def tryHeaderAt (cs : List Char) : Option String :=
  match expectSeq definedLit.toList cs with
  | some r1 =>
    match parseIncSpec r1 with
    | some (spec, r2) =>
      match expectSeq tailLit.toList r2 with
      | some [d] => if dotChar d then some (String.mk spec) else none
      | _ => none
    | none => none
  | none => none

/-- Leftmost match of the addition message grammar (JS `String.match` scans
start positions left to right). -/
def extractHeader : List Char → Option String
  | [] => none
  | c :: rest =>
    match tryHeaderAt (c :: rest) with
    | some h => some h
    | none => extractHeader rest

/-- `/\*([^*]|\*[^/])*\*\//` after the opening `/*`: the two interior
alternatives are mutually exclusive (one consumes a non-star, the other a
star plus a non-slash), so the scan is deterministic; it succeeds exactly
when it becomes stuck at `*/`. -/
def bcScan : List Char → Option (List Char)
  | '*' :: '/' :: r => some r
  | '*' :: _ :: r => bcScan r
  | _ :: r => bcScan r
  | [] => none

/-- One unit of the prologue pattern's comment-or-whitespace repetition
`(?:\/\*([^*]|\*[^/])*\*\/|\s)`. -/
def stepA (cs : List Char) : Option (List Char) :=
  match cs with
  | '/' :: '*' :: r => bcScan r
  | c :: r => if jsSpace c then some r else none
  | [] => none

/-- All stopping points of the greedy repetition `(?:…|\s)*`, in scan
order; each step consumes at least one character, so `fuel = cs.length`
never runs out before the scan is stuck. -/
def scanA : Nat → List Char → List (List Char)
  | 0, cs => [cs]
  | n + 1, cs =>
    cs :: (match stepA cs with
           | some r => scanA n r
           | none => [])

/-- The same stopping points in the JS engine's preference order (greedy:
longest first, backtracking to shorter). -/
def aCands (cs : List Char) : List (List Char) := (scanA cs.length cs).reverse

/-- Identifier `[A-Za-z_][A-Za-z0-9_]*` inside the prologue directives. -/
def parseIdent (cs : List Char) : Option (List Char) :=
  match cs with
  | c :: r => if identStart c then some (r.dropWhile identChar) else none
  | [] => none

/-- The optional directive of one prologue line:
`#\s*(?:ifndef\s+ID|define\s+ID|include\s*("[^"]*"|<[^>]*>))`.
Each greedy piece is followed by a character its class excludes, so the
scan is deterministic; a shorter match of `\s+`/identifier/spec would leave
a character the continuation rejects at once, so backtracking inside the
directive never changes the outcome. -/
def parseDir (cs : List Char) : Option (List Char) :=
  match cs with
  | '#' :: r =>
    let r1 := r.dropWhile jsSpace
    (match expectSeq "ifndef".toList r1 with
     | some r2 =>
       let sp := r2.takeWhile jsSpace
       if sp.isEmpty then none else parseIdent (r2.dropWhile jsSpace)
     | none => none).orElse fun _ =>
    (match expectSeq "define".toList r1 with
     | some r2 =>
       let sp := r2.takeWhile jsSpace
       if sp.isEmpty then none else parseIdent (r2.dropWhile jsSpace)
     | none => none).orElse fun _ =>
    (match expectSeq "include".toList r1 with
     | some r2 =>
       match r2.dropWhile jsSpace with
       | '"' :: q =>
         (match q.dropWhile (· ≠ '"') with
          | '"' :: rest => some rest
          | _ => none)
       | '<' :: q =>
         (match q.dropWhile (· ≠ '>') with
          | '>' :: rest => some rest
          | _ => none)
       | _ => none
     | none => none)
  | _ => none

/-- Candidates for the optional directive, in preference order (present
before absent). -/
def dCands (cs : List Char) : List (List Char) :=
  match parseDir cs with
  | some r => [r, cs]
  | none => [cs]

/-- The optional line comment `(?:\/\/[^\n]*)?` of one prologue line. -/
def lineComment (cs : List Char) : Option (List Char) :=
  match cs with
  | '/' :: '/' :: r => some (r.dropWhile (· ≠ '\n'))
  | _ => none

/-- Candidates for the optional line comment, in preference order. -/
def lCands (cs : List Char) : List (List Char) :=
  match lineComment cs with
  | some r => [r, cs]
  | none => [cs]

/-- One repetition of `PROLOGUE_PATTERN`'s outer group — one prologue line,
terminated by `\n`.  The nested candidate search enumerates the engine's
choice points leftmost-outermost first, each in its preference order, and
accepts the first combination whose remainder starts with the newline. -/
def unitParse (cs : List Char) : Option (List Char) :=
  (aCands cs).findSome? fun c1 =>
    (dCands c1).findSome? fun c2 =>
      (aCands c2).findSome? fun c3 =>
        (lCands c3).findSome? fun c4 =>
          match c4 with
          | '\n' :: r => some r
          | _ => none

/-- The outer greedy star of `PROLOGUE_PATTERN`: with nothing after the
star, the engine commits each repetition's preferred parse and stops at the
first failure.  Every repetition consumes at least the newline, so
`fuel = cs.length` suffices. -/
def proScan : Nat → List Char → List Char
  | 0, cs => cs
  | n + 1, cs =>
    match unitParse cs with
    | some r => proScan n r
    | none => cs

/-- Length of the prologue match: `document.getText().match(PROLOGUE_PATTERN)`
always succeeds (the pattern is a star), matching a possibly empty prefix. -/
def prologueLen (docText : String) : Nat :=
  let cs := docText.toList
  cs.length - (proScan cs.length cs).length

/-- `createQuickFixForAddition`: the header spec is taken from the message
via the grammar above — through a non-null assertion, so a message that
does not match makes the destructuring throw a `TypeError`, modelled as
`none`.  On a match the action inserts `#include <spec>` plus a blank line
at the end of the prologue (offset 0 for an empty document). -/
def createQuickFixForAddition (docText message : String) : Option AddAction :=
  (extractHeader message.toList).map fun h =>
    { title := "Include header " ++ h,
      insertOffset := prologueLen docText,
      insertText := "#include " ++ h ++ "\n\n" }

/-- The anchored message grammar of `createQuickFixForRemoval`:
`/^Unused #include (.+)\.$/`; the greedy capture is forced by the end
anchor: prefix, at least one `.`-class character, final literal dot. -/
def parseRemoveMsg (message : String) : Option String :=
  match expectSeq "Unused #include ".toList message.toList with
  | some r =>
    match r.reverse with
    | '.' :: midRev =>
      let mid := midRev.reverse
      if mid.isEmpty then none else
      if mid.all dotChar then some (String.mk mid) else none
    | _ => none
  | none => none

/-- `createQuickFixForRemoval`: total — a non-matching message only drops
the header name from the label; the edit always deletes from the
diagnostic's start position to column 0 of the next line. -/
def createQuickFixForRemoval (message : String) (startLine startChar : Int) :
    RemoveAction :=
  { title := match parseRemoveMsg message with
             | some h => "Remove header " ++ h
             | none => "Remove header",
    delStartLine := startLine, delStartChar := startChar,
    delEndLine := startLine + 1, delEndChar := 0 }

/-- Does this report line emit a correct-finding for the file identity
`uri`? -/
def correctFor (root uri l : String) : Bool :=
  match parseCorrectFinding l with
  | some p => mkUri root p == uri
  | none => false

/-- Does this report line emit an add-finding for the file identity
`uri`? -/
def addFor (root uri l : String) : Bool :=
  match parseAddFinding l with
  | some a => mkUri root a.path == uri
  | none => false

/-- Does this report line open a removal block for the file identity
`uri`? -/
def headerFor (root uri l : String) : Bool :=
  match parseRemoveHeader l with
  | some p => mkUri root p == uri
  | none => false

/-! ### Generic helper lemmas -/

theorem strToList_append (a b : String) : (a ++ b).toList = a.toList ++ b.toList := rfl

theorem strToList_mk (l : List Char) : (String.mk l).toList = l := rfl

theorem takeWhile_append_cons (p : Char → Bool) (xs : List Char) (y : Char)
    (ys : List Char) (hxs : ∀ x ∈ xs, p x = true) (hy : p y = false) :
    (xs ++ y :: ys).takeWhile p = xs := by
  induction xs with
  | nil => simp [List.takeWhile_cons, hy]
  | cons a t ih =>
    have ha : p a = true := hxs a (by simp)
    simp only [List.cons_append, List.takeWhile_cons, ha, if_true]
    rw [ih (fun x hx => hxs x (by simp [hx]))]

theorem dropWhile_append_cons (p : Char → Bool) (xs : List Char) (y : Char)
    (ys : List Char) (hxs : ∀ x ∈ xs, p x = true) (hy : p y = false) :
    (xs ++ y :: ys).dropWhile p = y :: ys := by
  induction xs with
  | nil => simp [List.dropWhile_cons, hy]
  | cons a t ih =>
    have ha : p a = true := hxs a (by simp)
    simp only [List.cons_append, List.dropWhile_cons, ha, if_true]
    exact ih (fun x hx => hxs x (by simp [hx]))

theorem expectSeq_append (xs r : List Char) : expectSeq xs (xs ++ r) = some r := by
  induction xs with
  | nil => rfl
  | cons a t ih => simp [expectSeq, ih]

theorem expectSeq_head_ne (p c : Char) (ps cs : List Char) (h : p ≠ c) :
    expectSeq (p :: ps) (c :: cs) = none := by
  simp [expectSeq, h]

/-! ### Characterization of the line parsers on grammar-shaped lines -/

/-- `inc` is rendered exactly as the capture `("[^"]+"|<[^>]+>)` demands:
quoted or angle-bracketed, nonempty interior free of the closing
delimiter. -/
def IncSpecP (inc : String) : Prop :=
  (∃ inner : String, inc = "\"" ++ inner ++ "\"" ∧ inner.toList ≠ [] ∧
    ∀ c ∈ inner.toList, c ≠ '"') ∨
  (∃ inner : String, inc = "<" ++ inner ++ ">" ∧ inner.toList ≠ [] ∧
    ∀ c ∈ inner.toList, c ≠ '>')

theorem parseIncSpec_quoted (inner rest : List Char) (hne : inner ≠ [])
    (hq : ∀ c ∈ inner, c ≠ '"') :
    parseIncSpec ('"' :: (inner ++ '"' :: rest)) =
      some ('"' :: (inner ++ ['"']), rest) := by
  have ht : (inner ++ '"' :: rest).takeWhile (· ≠ '"') = inner :=
    takeWhile_append_cons _ _ _ _ (fun x hx => by simpa using hq x hx) (by simp)
  have hd : (inner ++ '"' :: rest).dropWhile (· ≠ '"') = '"' :: rest :=
    dropWhile_append_cons _ _ _ _ (fun x hx => by simpa using hq x hx) (by simp)
  have he : inner.isEmpty = false := List.isEmpty_eq_false.mpr hne
  simp only [parseIncSpec, ht, hd, he, Bool.false_eq_true, if_false]

theorem parseIncSpec_angle (inner rest : List Char) (hne : inner ≠ [])
    (hq : ∀ c ∈ inner, c ≠ '>') :
    parseIncSpec ('<' :: (inner ++ '>' :: rest)) =
      some ('<' :: (inner ++ ['>']), rest) := by
  have ht : (inner ++ '>' :: rest).takeWhile (· ≠ '>') = inner :=
    takeWhile_append_cons _ _ _ _ (fun x hx => by simpa using hq x hx) (by simp)
  have hd : (inner ++ '>' :: rest).dropWhile (· ≠ '>') = '>' :: rest :=
    dropWhile_append_cons _ _ _ _ (fun x hx => by simpa using hq x hx) (by simp)
  have he : inner.isEmpty = false := List.isEmpty_eq_false.mpr hne
  simp only [parseIncSpec, ht, hd, he, Bool.false_eq_true, if_false]

theorem parseIncSpec_of (inc : String) (rest : List Char) (hinc : IncSpecP inc) :
    parseIncSpec (inc.toList ++ rest) = some (inc.toList, rest) := by
  rcases hinc with ⟨inner, rfl, hne, hq⟩ | ⟨inner, rfl, hne, hq⟩
  · have hl : ("\"" ++ inner ++ "\"").toList ++ rest =
        '"' :: (inner.toList ++ '"' :: rest) := by
      simp [strToList_append]
    rw [hl, parseIncSpec_quoted inner.toList rest hne hq]
    simp [strToList_append]
  · have hl : ("<" ++ inner ++ ">").toList ++ rest =
        '<' :: (inner.toList ++ '>' :: rest) := by
      simp [strToList_append]
    rw [hl, parseIncSpec_angle inner.toList rest hne hq]
    simp [strToList_append]

/-- The add-finding regex accepts every line of its grammar and produces the
captures the grammar names. -/
theorem parseAddFinding_eq (path row col sym inc : String)
    (hpath : path.toList ≠ [] ∧ ∀ c ∈ path.toList, c ≠ ':')
    (hrow : row.toList ≠ [] ∧ ∀ c ∈ row.toList, c.isDigit = true)
    (hcol : col.toList ≠ [] ∧ ∀ c ∈ col.toList, c.isDigit = true)
    (hsym : sym.toList ≠ [] ∧ ∀ c ∈ sym.toList, jsSpace c = false)
    (hinc : IncSpecP inc) :
    parseAddFinding
        (path ++ ":" ++ row ++ ":" ++ col ++ warnLit ++ sym ++ definedLit ++
          inc ++ msgTail) =
      some ⟨path, natOfDigits row.toList, natOfDigits col.toList, sym, inc⟩ := by
  have hl : (path ++ ":" ++ row ++ ":" ++ col ++ warnLit ++ sym ++ definedLit ++
      inc ++ msgTail).toList =
      path.toList ++ ':' :: (row.toList ++ ':' :: (col.toList ++
        (warnLit.toList ++ (sym.toList ++ (definedLit.toList ++
          (inc.toList ++ msgTail.toList)))))) := by
    simp [strToList_append]
  have hpt : (path.toList ++ ':' :: (row.toList ++ ':' :: (col.toList ++
      (warnLit.toList ++ (sym.toList ++ (definedLit.toList ++
        (inc.toList ++ msgTail.toList))))))).takeWhile (· ≠ ':') = path.toList :=
    takeWhile_append_cons _ _ _ _ (fun x hx => by simpa using hpath.2 x hx) (by simp)
  have hpd : (path.toList ++ ':' :: (row.toList ++ ':' :: (col.toList ++
      (warnLit.toList ++ (sym.toList ++ (definedLit.toList ++
        (inc.toList ++ msgTail.toList))))))).dropWhile (· ≠ ':') =
      ':' :: (row.toList ++ ':' :: (col.toList ++
      (warnLit.toList ++ (sym.toList ++ (definedLit.toList ++
        (inc.toList ++ msgTail.toList)))))) :=
    dropWhile_append_cons _ _ _ _ (fun x hx => by simpa using hpath.2 x hx) (by simp)
  have hrt : (row.toList ++ ':' :: (col.toList ++
      (warnLit.toList ++ (sym.toList ++ (definedLit.toList ++
        (inc.toList ++ msgTail.toList)))))).takeWhile Char.isDigit = row.toList :=
    takeWhile_append_cons _ _ _ _ (fun x hx => hrow.2 x hx) (by decide)
  have hrd : (row.toList ++ ':' :: (col.toList ++
      (warnLit.toList ++ (sym.toList ++ (definedLit.toList ++
        (inc.toList ++ msgTail.toList)))))).dropWhile Char.isDigit =
      ':' :: (col.toList ++ (warnLit.toList ++ (sym.toList ++ (definedLit.toList ++
        (inc.toList ++ msgTail.toList))))) :=
    dropWhile_append_cons _ _ _ _ (fun x hx => hrow.2 x hx) (by decide)
  have hw : warnLit.toList ++ (sym.toList ++ (definedLit.toList ++
      (inc.toList ++ msgTail.toList))) =
      ':' :: (" warning: ".toList ++ (sym.toList ++ (definedLit.toList ++
        (inc.toList ++ msgTail.toList)))) := rfl
  have hct : (col.toList ++ (warnLit.toList ++ (sym.toList ++ (definedLit.toList ++
      (inc.toList ++ msgTail.toList))))).takeWhile Char.isDigit = col.toList := by
    rw [hw]
    exact takeWhile_append_cons _ _ _ _ (fun x hx => hcol.2 x hx) (by decide)
  have hcd : (col.toList ++ (warnLit.toList ++ (sym.toList ++ (definedLit.toList ++
      (inc.toList ++ msgTail.toList))))).dropWhile Char.isDigit =
      warnLit.toList ++ (sym.toList ++ (definedLit.toList ++
        (inc.toList ++ msgTail.toList))) := by
    rw [hw]
    exact dropWhile_append_cons _ _ _ _ (fun x hx => hcol.2 x hx) (by decide)
  have hwe : expectSeq warnLit.toList (warnLit.toList ++ (sym.toList ++
      (definedLit.toList ++ (inc.toList ++ msgTail.toList)))) =
      some (sym.toList ++ (definedLit.toList ++ (inc.toList ++ msgTail.toList))) :=
    expectSeq_append _ _
  have hds : definedLit.toList ++ (inc.toList ++ msgTail.toList) =
      ' ' :: ("is defined in ".toList ++ (inc.toList ++ msgTail.toList)) := rfl
  have hst : (sym.toList ++ (definedLit.toList ++ (inc.toList ++
      msgTail.toList))).takeWhile (fun c => !jsSpace c) = sym.toList := by
    rw [hds]
    exact takeWhile_append_cons _ _ _ _
      (fun x hx => by simp [hsym.2 x hx]) (by decide)
  have hsd : (sym.toList ++ (definedLit.toList ++ (inc.toList ++
      msgTail.toList))).dropWhile (fun c => !jsSpace c) =
      definedLit.toList ++ (inc.toList ++ msgTail.toList) := by
    rw [hds]
    exact dropWhile_append_cons _ _ _ _
      (fun x hx => by simp [hsym.2 x hx]) (by decide)
  have hde : expectSeq definedLit.toList (definedLit.toList ++
      (inc.toList ++ msgTail.toList)) = some (inc.toList ++ msgTail.toList) :=
    expectSeq_append _ _
  have hie : parseIncSpec (inc.toList ++ msgTail.toList) =
      some (inc.toList, msgTail.toList) := parseIncSpec_of inc _ hinc
  have hmt : msgTail.toList = tailLit.toList ++ ['.'] := rfl
  have hte : expectSeq tailLit.toList msgTail.toList = some ['.'] := by
    rw [hmt]; exact expectSeq_append _ _
  simp only [parseAddFinding, hl, hpt, hpd, hrt, hrd, hct, hcd, hwe, hst, hsd,
    hde, hie, hte, List.isEmpty_eq_true, hpath.1, hrow.1, hcol.1, hsym.1,
    if_false, strToList_mk]
  simp [hpath.1, hrow.1, hcol.1, hsym.1, dotChar]

/-- The correct-finding regex accepts every line of its grammar, capturing
the path between `(` and the fixed suffix. -/
theorem parseCorrectFinding_eq (path : String)
    (hp : ∀ c ∈ path.toList, dotChar c = true) :
    parseCorrectFinding ("(" ++ path ++ corSuffix) = some path := by
  have hl : ("(" ++ path ++ corSuffix).toList =
      '(' :: (path.toList ++ corSuffix.toList) := by
    simp [strToList_append]
  have hrev : (path.toList ++ corSuffix.toList).reverse =
      corSuffix.toList.reverse ++ path.toList.reverse :=
    List.reverse_append _ _
  have hall : path.toList.reverse.reverse.all dotChar = true := by
    rw [List.reverse_reverse]
    exact List.all_eq_true.mpr hp
  have hcond : path.toList.all dotChar = true := List.all_eq_true.mpr hp
  simp only [parseCorrectFinding, hl, hrev, expectSeq_append, if_true,
    List.reverse_reverse, hcond, ite_true]
  rfl

/-- The removal-block header regex accepts every line of its grammar,
capturing the path before the fixed suffix. -/
theorem parseRemoveHeader_eq (path : String)
    (hp : ∀ c ∈ path.toList, dotChar c = true) :
    parseRemoveHeader (path ++ removeSuffix) = some path := by
  have hrev : (path ++ removeSuffix).toList.reverse =
      removeSuffix.toList.reverse ++ path.toList.reverse := by
    rw [strToList_append]; exact List.reverse_append _ _
  have hall : path.toList.reverse.reverse.all dotChar = true := by
    rw [List.reverse_reverse]
    exact List.all_eq_true.mpr hp
  have hcond : path.toList.all dotChar = true := List.all_eq_true.mpr hp
  simp only [parseRemoveHeader, hrev, expectSeq_append, List.reverse_reverse, hcond,
    ite_true]
  rfl

/-- The removal-entry regex accepts every line of its grammar; the end line
of the reported range is parsed but ignored by the rest of the pipeline, so
it is only existentially described here (arbitrary text may even follow the
digits, since the regex has no end anchor). -/
theorem parseRemoveFinding_eq (ws1 ws2 : List Char) (inc s : String)
    (tail : List Char)
    (hws1 : ∀ c ∈ ws1, jsSpace c = true) (hws2 : ∀ c ∈ ws2, jsSpace c = true)
    (hinc : IncSpecP inc)
    (hs : s.toList ≠ [] ∧ ∀ c ∈ s.toList, c.isDigit = true)
    (he : ∃ d rest, tail = d :: rest ∧ d.isDigit = true) :
    ∃ rend, parseRemoveFinding ("- #include" ++ String.mk ws1 ++ inc ++
        String.mk ws2 ++ "// lines " ++ s ++ "-" ++ String.mk tail) =
      some ⟨String.mk ("#include".toList ++ ws1 ++ inc.toList), inc,
            natOfDigits s.toList, rend⟩ := by
  have hincHead : ∃ h t, inc.toList = h :: t ∧ jsSpace h = false := by
    rcases hinc with ⟨inner, rfl, _, _⟩ | ⟨inner, rfl, _, _⟩
    · exact ⟨'"', inner.toList ++ ['"'], by simp [strToList_append], by decide⟩
    · exact ⟨'<', inner.toList ++ ['>'], by simp [strToList_append], by decide⟩
  obtain ⟨h0, t0, hit, hh0⟩ := hincHead
  have hl : ("- #include" ++ String.mk ws1 ++ inc ++ String.mk ws2 ++
      "// lines " ++ s ++ "-" ++ String.mk tail).toList =
      "- #include".toList ++ (ws1 ++ (inc.toList ++ (ws2 ++ ("// lines ".toList ++
        (s.toList ++ ('-' :: tail)))))) := by
    simp [strToList_append, strToList_mk]
  have hslash : ws2 ++ ("// lines ".toList ++ (s.toList ++ ('-' :: tail))) =
      ws2 ++ '/' :: ("/ lines ".toList ++ (s.toList ++ ('-' :: tail))) := rfl
  have hshape : ws1 ++ (inc.toList ++ (ws2 ++ ("// lines ".toList ++
      (s.toList ++ ('-' :: tail))))) =
      ws1 ++ h0 :: (t0 ++ (ws2 ++ ("// lines ".toList ++
        (s.toList ++ ('-' :: tail))))) := by
    rw [hit]; rfl
  have hwt : (ws1 ++ (inc.toList ++ (ws2 ++ ("// lines ".toList ++
      (s.toList ++ ('-' :: tail)))))).takeWhile jsSpace = ws1 := by
    rw [hshape]
    exact takeWhile_append_cons _ _ _ _ hws1 hh0
  have hwd : (ws1 ++ (inc.toList ++ (ws2 ++ ("// lines ".toList ++
      (s.toList ++ ('-' :: tail)))))).dropWhile jsSpace =
      inc.toList ++ (ws2 ++ ("// lines ".toList ++ (s.toList ++ ('-' :: tail)))) := by
    rw [hshape, dropWhile_append_cons _ _ _ _ hws1 hh0, ← List.cons_append, ← hit]
  have hpi : parseIncSpec (inc.toList ++ (ws2 ++ ("// lines ".toList ++
      (s.toList ++ ('-' :: tail))))) =
      some (inc.toList, ws2 ++ ("// lines ".toList ++ (s.toList ++ ('-' :: tail)))) :=
    parseIncSpec_of inc _ hinc
  have hw2 : (ws2 ++ ("// lines ".toList ++ (s.toList ++
      ('-' :: tail)))).dropWhile jsSpace =
      "// lines ".toList ++ (s.toList ++ ('-' :: tail)) := by
    rw [hslash, dropWhile_append_cons _ _ _ _ hws2 (by decide)]
    rfl
  have hst : (s.toList ++ ('-' :: tail)).takeWhile Char.isDigit = s.toList :=
    takeWhile_append_cons _ _ _ _ (fun x hx => hs.2 x hx) (by decide)
  have hsd : (s.toList ++ ('-' :: tail)).dropWhile Char.isDigit = '-' :: tail :=
    dropWhile_append_cons _ _ _ _ (fun x hx => hs.2 x hx) (by decide)
  obtain ⟨d, drest, rfl, hd⟩ := he
  have hte : (d :: drest).takeWhile Char.isDigit =
      d :: drest.takeWhile Char.isDigit := by
    simp [List.takeWhile_cons, hd]
  refine ⟨natOfDigits ((d :: drest).takeWhile Char.isDigit), ?_⟩
  simp only [parseRemoveFinding, hl, expectSeq_append, hwt, hwd, hpi, hw2,
    expectSeq_append, hst, hsd, hte, List.isEmpty_eq_true, hs.1, if_false,
    List.isEmpty_cons, strToList_mk]
  simp [hs.1]

theorem expectSeq_eq_some :
    ∀ (xs cs r : List Char), expectSeq xs cs = some r → cs = xs ++ r := by
  intro xs
  induction xs with
  | nil =>
    intro cs r h
    simpa [expectSeq] using h
  | cons p ps ih =>
    intro cs r h
    cases cs with
    | nil => simp [expectSeq] at h
    | cons c cs' =>
      by_cases hpc : p = c
      · subst hpc
        simp only [expectSeq, if_true] at h
        simp [ih cs' r h]
      · simp [expectSeq, hpc] at h

theorem parseIncSpec_suffix (cs spec rest : List Char)
    (h : parseIncSpec cs = some (spec, rest)) : rest <:+ cs := by
  unfold parseIncSpec at h
  split at h
  · rename_i r
    split at h
    · simp at h
    · split at h
      · rename_i rest' heq
        simp only [Option.some.injEq, Prod.mk.injEq] at h
        obtain ⟨-, rfl⟩ := h
        have h1 : rest' <:+ '"' :: rest' := List.suffix_cons _ _
        have h2 : '"' :: rest' <:+ r := heq ▸ List.dropWhile_suffix _
        exact (h1.trans h2).trans (List.suffix_cons _ _)
      · simp at h
  · rename_i r
    split at h
    · simp at h
    · split at h
      · rename_i rest' heq
        simp only [Option.some.injEq, Prod.mk.injEq] at h
        obtain ⟨-, rfl⟩ := h
        have h1 : rest' <:+ '>' :: rest' := List.suffix_cons _ _
        have h2 : '>' :: rest' <:+ r := heq ▸ List.dropWhile_suffix _
        exact (h1.trans h2).trans (List.suffix_cons _ _)
      · simp at h
  · simp at h

/-- Inversion: a line the add-finding regex accepts ends with the literal
message tail followed by one `.`-class character. -/
theorem parseAddFinding_suffix (line : String) (a : AddM)
    (h : parseAddFinding line = some a) :
    ∃ d, dotChar d = true ∧ (tailLit.toList ++ [d]) <:+ line.toList := by
  unfold parseAddFinding at h
  simp only [] at h
  split at h
  · simp at h
  · split at h
    · rename_i r1 heq1
      split at h
      · simp at h
      · split at h
        · rename_i r2 heq2
          split at h
          · simp at h
          · split at h
            · rename_i r3 heq3
              split at h
              · simp at h
              · split at h
                · rename_i r4 heq4
                  split at h
                  · rename_i spec r5 heq5
                    split at h
                    · rename_i d heq6
                      split at h
                      · rename_i hdot
                        refine ⟨d, hdot, ?_⟩
                        have hr5 : r5 = tailLit.toList ++ [d] :=
                          expectSeq_eq_some _ _ _ heq6
                        have s5 : r5 <:+ r4 := parseIncSpec_suffix _ _ _ heq5
                        have hr4 : r3.dropWhile (fun c => !jsSpace c) =
                            definedLit.toList ++ r4 :=
                          expectSeq_eq_some _ _ _ heq4
                        have s4 : r4 <:+ r3 := by
                          have : r4 <:+ definedLit.toList ++ r4 :=
                            ⟨definedLit.toList, rfl⟩
                          exact (this.trans (hr4 ▸ List.dropWhile_suffix _))
                        have hr3 : r2.dropWhile Char.isDigit =
                            warnLit.toList ++ r3 :=
                          expectSeq_eq_some _ _ _ heq3
                        have s3 : r3 <:+ r2 := by
                          have : r3 <:+ warnLit.toList ++ r3 :=
                            ⟨warnLit.toList, rfl⟩
                          exact this.trans (hr3 ▸ List.dropWhile_suffix _)
                        have s2 : r2 <:+ r1 := by
                          have h1 : r2 <:+ ':' :: r2 := List.suffix_cons _ _
                          exact h1.trans (heq2 ▸ List.dropWhile_suffix _)
                        have s1 : r1 <:+ line.toList := by
                          have h1 : r1 <:+ ':' :: r1 := List.suffix_cons _ _
                          exact h1.trans (heq1 ▸ List.dropWhile_suffix _)
                        exact hr5 ▸ (s5.trans (s4.trans (s3.trans (s2.trans s1))))
                      · simp at h
                    · simp at h
                  · simp at h
                · simp at h
            · simp at h
        · simp at h
    · simp at h

/-- A line that does not end in `)` never matches the correct-finding
regex. -/
theorem parseCorrectFinding_none_of_last (line : String) (X : List Char)
    (c : Char) (hl : line.toList = X ++ [c]) (hc : c ≠ ')') :
    parseCorrectFinding line = none := by
  obtain ⟨u, hu⟩ : ∃ u, corSuffix.toList.reverse = ')' :: u := ⟨_, rfl⟩
  unfold parseCorrectFinding
  rw [hl]
  cases X with
  | nil =>
    simp only [List.nil_append]
    by_cases h : c = '('
    · subst h
      rw [hu]
      simp [expectSeq]
    · simp [h]
  | cons x xs =>
    simp only [List.cons_append]
    by_cases h : x = '('
    · subst h
      have hrev : (xs ++ [c]).reverse = c :: xs.reverse := by
        simp
      rw [if_pos rfl, hu, hrev, expectSeq_head_ne _ _ _ _ (Ne.symm hc)]
    · simp [h]

/-- A removal-block header line never matches the add-finding regex: the
one ends `…lines:`, the other `…#included` plus one character. -/
theorem parseAddFinding_none_header (path : String) :
    parseAddFinding (path ++ removeSuffix) = none := by
  cases hopt : parseAddFinding (path ++ removeSuffix) with
  | none => rfl
  | some a =>
    exfalso
    obtain ⟨d, -, t, ht⟩ := parseAddFinding_suffix _ _ hopt
    obtain ⟨v, hv⟩ : ∃ v, tailLit.toList.reverse = 'd' :: v := ⟨_, rfl⟩
    obtain ⟨u, hu⟩ : ∃ u, removeSuffix.toList.reverse = ':' :: 's' :: u := ⟨_, rfl⟩
    have h1 : (path ++ removeSuffix).toList.reverse =
        ':' :: 's' :: (u ++ path.toList.reverse) := by
      rw [strToList_append, List.reverse_append, hu]
      rfl
    have h2 : (path ++ removeSuffix).toList.reverse =
        d :: 'd' :: (v ++ t.reverse) := by
      rw [← ht, List.reverse_append, List.reverse_append, hv]
      rfl
    rw [h1] at h2
    simp at h2

/-! ### Findings-map and publish lemmas -/

theorem fmLookup_fmSet_self (m : FMap) (u : String) (v : List Diagnostic) :
    fmLookup (fmSet m u v) u = some v := by
  induction m with
  | nil => simp [fmSet, fmLookup]
  | cons e t ih =>
    by_cases h : e.1 = u
    · simp [fmSet, fmLookup, h]
    · simp [fmSet, fmLookup, h, ih]

theorem fmLookup_fmSet_ne (m : FMap) (u u' : String) (v : List Diagnostic)
    (h : u' ≠ u) : fmLookup (fmSet m u v) u' = fmLookup m u' := by
  induction m with
  | nil => simp [fmSet, fmLookup, Ne.symm h]
  | cons e t ih =>
    by_cases he : e.1 = u
    · simp [fmSet, fmLookup, he, Ne.symm h]
    · by_cases he' : e.1 = u'
      · simp [fmSet, fmLookup, he, he', h]
      · simp [fmSet, fmLookup, he, he', ih]

theorem fmLookup_fmPush_self (m : FMap) (u : String) (d : Diagnostic) :
    fmLookup (fmPush m u d) u = some ((fmLookup m u).getD [] ++ [d]) := by
  induction m with
  | nil => simp [fmPush, fmLookup]
  | cons e t ih =>
    by_cases h : e.1 = u
    · simp [fmPush, fmLookup, h]
    · simp [fmPush, fmLookup, h, ih]

theorem fmLookup_fmPush_ne (m : FMap) (u u' : String) (d : Diagnostic)
    (h : u' ≠ u) : fmLookup (fmPush m u d) u' = fmLookup m u' := by
  induction m with
  | nil => simp [fmPush, fmLookup, Ne.symm h]
  | cons e t ih =>
    by_cases he : e.1 = u
    · simp [fmPush, fmLookup, he, Ne.symm h]
    · by_cases he' : e.1 = u'
      · simp [fmPush, fmLookup, he, he', h]
      · simp [fmPush, fmLookup, he, he', ih]

theorem fmLookup_fmErase_self (m : FMap) (u : String) :
    fmLookup (fmErase m u) u = none := by
  induction m with
  | nil => simp [fmErase, fmLookup]
  | cons e t ih =>
    by_cases h : e.1 = u
    · simp [fmErase, h, ih]
    · simp [fmErase, fmLookup, h, ih]

theorem fmLookup_fmErase_ne (m : FMap) (u u' : String) (h : u' ≠ u) :
    fmLookup (fmErase m u) u' = fmLookup m u' := by
  induction m with
  | nil => simp [fmErase]
  | cons e t ih =>
    by_cases he : e.1 = u
    · simp [fmErase, fmLookup, he, Ne.symm h, ih]
    · simp [fmErase, fmLookup, he, ih]

theorem fmLookup_none_iff (m : FMap) (u : String) :
    fmLookup m u = none ↔ ∀ e ∈ m, e.1 ≠ u := by
  induction m with
  | nil => simp [fmLookup]
  | cons e t ih =>
    by_cases h : e.1 = u
    · simp [fmLookup, h]
    · simp [fmLookup, h, ih]

theorem fmSet_keys_nodup (m : FMap) (u : String) (v : List Diagnostic)
    (h : (m.map Prod.fst).Nodup) : ((fmSet m u v).map Prod.fst).Nodup := by
  induction m with
  | nil => simp [fmSet]
  | cons e t ih =>
    by_cases he : e.1 = u
    · subst he
      simpa [fmSet] using h
    · simp only [fmSet, he, if_false, List.map_cons, List.nodup_cons] at h ⊢
      refine ⟨?_, ih h.2⟩
      intro hmem
      -- membership in keys of `fmSet t u v` is membership in keys of `t` or `u`
      have : e.1 ∈ (t.map Prod.fst) ∨ e.1 = u := by
        clear h ih
        induction t with
        | nil => simpa [fmSet] using hmem
        | cons f t' ih' =>
          by_cases hf : f.1 = u
          · subst hf
            exact Or.inl (by simpa [fmSet] using hmem)
          · simp only [fmSet, hf, if_false, List.map_cons, List.mem_cons] at hmem
            rcases hmem with h1 | h1
            · simp [h1]
            · rcases ih' h1 with h2 | h2
              · simp [h2]
              · simp [h2]
      rcases this with h1 | h1
      · exact h.1 h1
      · exact he h1

theorem fmPush_keys_nodup (m : FMap) (u : String) (d : Diagnostic)
    (h : (m.map Prod.fst).Nodup) : ((fmPush m u d).map Prod.fst).Nodup := by
  induction m with
  | nil => simp [fmPush]
  | cons e t ih =>
    by_cases he : e.1 = u
    · subst he
      simpa [fmPush] using h
    · simp only [fmPush, he, if_false, List.map_cons, List.nodup_cons] at h ⊢
      refine ⟨?_, ih h.2⟩
      intro hmem
      have : e.1 ∈ (t.map Prod.fst) ∨ e.1 = u := by
        clear h ih
        induction t with
        | nil => simpa [fmPush] using hmem
        | cons f t' ih' =>
          by_cases hf : f.1 = u
          · subst hf
            exact Or.inl (by simpa [fmPush] using hmem)
          · simp only [fmPush, hf, if_false, List.map_cons, List.mem_cons] at hmem
            rcases hmem with h1 | h1
            · simp [h1]
            · rcases ih' h1 with h2 | h2
              · simp [h2]
              · simp [h2]
      rcases this with h1 | h1
      · exact h.1 h1
      · exact he h1

theorem publish_cons (store : FMap) (e : String × List Diagnostic) (t : FMap) :
    publish store (e :: t) =
      publish (if e.2.length > 0 then fmSet store e.1 e.2 else fmErase store e.1) t :=
  rfl

theorem publish_lookup_not_mem (m : FMap) :
    ∀ (store : FMap) (u : String), (∀ e ∈ m, e.1 ≠ u) →
      fmLookup (publish store m) u = fmLookup store u := by
  induction m with
  | nil => intro store u _; rfl
  | cons e t ih =>
    intro store u h
    rw [publish_cons]
    rw [ih _ u (fun f hf => h f (by simp [hf]))]
    have he : e.1 ≠ u := h e (by simp)
    by_cases hl : e.2.length > 0
    · simp [hl, fmLookup_fmSet_ne _ _ _ _ (Ne.symm he)]
    · simp [hl, fmLookup_fmErase_ne _ _ _ (Ne.symm he)]

/-- Publishing a findings map whose (unique) entry for a file is the empty
list deletes that file from the diagnostics store. -/
theorem publish_lookup_empty (m : FMap) :
    ∀ (store : FMap) (u : String), fmLookup m u = some [] →
      (m.map Prod.fst).Nodup → fmLookup (publish store m) u = none := by
  induction m with
  | nil => intro store u h; simp [fmLookup] at h
  | cons e t ih =>
    intro store u h hnd
    simp only [List.map_cons, List.nodup_cons] at hnd
    by_cases he : e.1 = u
    · subst he
      simp only [fmLookup, if_true] at h
      have hv : e.2 = [] := by simpa using h
      rw [publish_cons, hv]
      simp only [List.length_nil, gt_iff_lt, Nat.lt_irrefl, if_false]
      rw [publish_lookup_not_mem t _ e.1 ?hkeys]
      · exact fmLookup_fmErase_self store e.1
      case hkeys =>
        intro f hf hfe
        exact hnd.1 (hfe ▸ List.mem_map_of_mem Prod.fst hf)
    · simp only [fmLookup, he, if_false] at h
      rw [publish_cons]
      exact ih _ u h hnd.2

/-! ### Report-scan invariants -/

theorem scanReport_cons (root docText : String) (st : FMap × Mode) (l : String)
    (rest : List String) :
    scanReport root docText st (l :: rest) =
      scanReport root docText (stepLine root docText st l) rest := rfl

theorem scanReport_append (root docText : String) (st : FMap × Mode)
    (xs ys : List String) :
    scanReport root docText st (xs ++ ys) =
      scanReport root docText (scanReport root docText st xs) ys :=
  List.foldl_append _ _ _ _

/-- A line that mentions `uri` in none of the three grammars leaves the
entry for `uri` untouched and cannot open a block for `uri`. -/
theorem stepLine_not_for (root docText uri : String) (m : FMap) (mode : Mode)
    (l : String) (hc : correctFor root uri l = false)
    (ha : addFor root uri l = false) (hh : headerFor root uri l = false)
    (hmode : mode ≠ Mode.inBlock uri) :
    fmLookup (stepLine root docText (m, mode) l).1 uri = fmLookup m uri ∧
    (stepLine root docText (m, mode) l).2 ≠ Mode.inBlock uri := by
  cases mode with
  | scanning =>
    simp only [stepLine]
    cases hcp : parseCorrectFinding l with
    | some p =>
      have hne : uri ≠ mkUri root p := by
        intro he
        rw [correctFor, hcp] at hc
        simp [he] at hc
      simp [fmLookup_fmSet_ne _ _ _ _ hne]
    | none =>
      cases hap : parseAddFinding l with
      | some a =>
        have hne : uri ≠ mkUri root a.path := by
          intro he
          rw [addFor, hap] at ha
          simp [he] at ha
        simp [fmLookup_fmPush_ne _ _ _ _ hne]
      | none =>
        cases hhp : parseRemoveHeader l with
        | some p =>
          have hne : uri ≠ mkUri root p := by
            intro he
            rw [headerFor, hhp] at hh
            simp [he] at hh
          constructor
          · by_cases hs : (fmLookup m (mkUri root p)).isSome
            · simp [hs]
            · simp [hs, fmLookup_fmSet_ne _ _ _ _ hne]
          · simp [Mode.inBlock.injEq]
            exact fun he => hne he.symm
        | none => simp
  | inBlock u' =>
    have hu' : u' ≠ uri := fun he => hmode (by rw [he])
    simp only [stepLine]
    by_cases hbl : l = ""
    · simp [hbl]
    · simp only [hbl, if_false]
      cases hrp : parseRemoveFinding l with
      | some r => simp [fmLookup_fmPush_ne _ _ _ _ (Ne.symm hu'), hu']
      | none => simp [hu']

/-- A line that is neither an add-finding nor a removal-block header for
`uri` keeps the entry for `uri` empty-or-absent (a correct-finding resets
it to the empty list). -/
theorem stepLine_keeps01 (root docText uri : String) (m : FMap) (mode : Mode)
    (l : String) (ha : addFor root uri l = false)
    (hh : headerFor root uri l = false) (hmode : mode ≠ Mode.inBlock uri)
    (hm : fmLookup m uri = none ∨ fmLookup m uri = some []) :
    (fmLookup (stepLine root docText (m, mode) l).1 uri = none ∨
      fmLookup (stepLine root docText (m, mode) l).1 uri = some []) ∧
    (stepLine root docText (m, mode) l).2 ≠ Mode.inBlock uri := by
  by_cases hc : correctFor root uri l = true
  · cases mode with
    | scanning =>
      rw [correctFor] at hc
      cases hcp : parseCorrectFinding l with
      | some p =>
        rw [hcp] at hc
        have he : mkUri root p = uri := by simpa using hc
        simp only [stepLine, hcp, he]
        exact ⟨Or.inr (fmLookup_fmSet_self m uri []), by simp⟩
      | none => rw [hcp] at hc; simp at hc
    | inBlock u' =>
      have hu' : u' ≠ uri := fun he => hmode (by rw [he])
      simp only [stepLine]
      by_cases hbl : l = ""
      · simpa [hbl] using hm
      · simp only [hbl, if_false]
        cases hrp : parseRemoveFinding l with
        | some r =>
          simpa [fmLookup_fmPush_ne _ _ _ _ (Ne.symm hu'), hu'] using hm
        | none => simpa [hu'] using hm
  · have hc' : correctFor root uri l = false := by
      cases h : correctFor root uri l
      · rfl
      · exact absurd h hc
    obtain ⟨h1, h2⟩ := stepLine_not_for root docText uri m mode l hc' ha hh hmode
    rw [h1]
    exact ⟨hm, h2⟩

/-- No step of the scan deletes an existing findings-map entry. -/
theorem stepLine_isSome (root docText uri : String) (st : FMap × Mode)
    (l : String) (hm : (fmLookup st.1 uri).isSome = true) :
    (fmLookup (stepLine root docText st l).1 uri).isSome = true := by
  obtain ⟨m, mode⟩ := st
  cases mode with
  | scanning =>
    simp only [stepLine]
    cases hcp : parseCorrectFinding l with
    | some p =>
      dsimp only
      by_cases he : uri = mkUri root p
      · rw [← he, fmLookup_fmSet_self]; rfl
      · rw [fmLookup_fmSet_ne _ _ _ _ he]; exact hm
    | none =>
      cases hap : parseAddFinding l with
      | some a =>
        dsimp only
        by_cases he : uri = mkUri root a.path
        · rw [← he, fmLookup_fmPush_self]; rfl
        · rw [fmLookup_fmPush_ne _ _ _ _ he]; exact hm
      | none =>
        cases hhp : parseRemoveHeader l with
        | some p =>
          dsimp only
          by_cases hs : (fmLookup m (mkUri root p)).isSome
          · simpa [hs] using hm
          · by_cases he : uri = mkUri root p
            · simp only [hs, Bool.false_eq_true, if_false]
              rw [← he, fmLookup_fmSet_self]; rfl
            · simp only [hs, Bool.false_eq_true, if_false]
              rw [fmLookup_fmSet_ne _ _ _ _ he]; exact hm
        | none => exact hm
  | inBlock u' =>
    simp only [stepLine]
    by_cases hbl : l = ""
    · simpa [hbl] using hm
    · simp only [hbl, if_false]
      cases hrp : parseRemoveFinding l with
      | some r =>
        dsimp only
        by_cases he : uri = u'
        · rw [← he, fmLookup_fmPush_self]; rfl
        · rw [fmLookup_fmPush_ne _ _ _ _ he]; exact hm
      | none => exact hm

/-- Every step of the scan preserves uniqueness of the findings-map
keys. -/
theorem stepLine_nodup (root docText : String) (st : FMap × Mode) (l : String)
    (h : (st.1.map Prod.fst).Nodup) :
    ((stepLine root docText st l).1.map Prod.fst).Nodup := by
  obtain ⟨m, mode⟩ := st
  cases mode with
  | scanning =>
    simp only [stepLine]
    cases parseCorrectFinding l with
    | some p => exact fmSet_keys_nodup _ _ _ h
    | none =>
      cases parseAddFinding l with
      | some a => exact fmPush_keys_nodup _ _ _ h
      | none =>
        cases parseRemoveHeader l with
        | some p =>
          by_cases hs : (fmLookup m (mkUri root p)).isSome
          · simpa [hs] using h
          · simp only [hs, if_false]
            exact fmSet_keys_nodup _ _ _ h
        | none => exact h
  | inBlock u' =>
    simp only [stepLine]
    by_cases hbl : l = ""
    · simpa [hbl] using h
    · simp only [hbl, if_false]
      cases parseRemoveFinding l with
      | some r => exact fmPush_keys_nodup _ _ _ h
      | none => exact h

theorem scan_not_for (root docText uri : String) :
    ∀ (lines : List String) (m : FMap) (mode : Mode),
      (∀ l ∈ lines, correctFor root uri l = false ∧ addFor root uri l = false ∧
        headerFor root uri l = false) →
      mode ≠ Mode.inBlock uri →
      fmLookup (scanReport root docText (m, mode) lines).1 uri = fmLookup m uri ∧
      (scanReport root docText (m, mode) lines).2 ≠ Mode.inBlock uri := by
  intro lines
  induction lines with
  | nil => intro m mode _ hmode; exact ⟨rfl, hmode⟩
  | cons l rest ih =>
    intro m mode hl hmode
    obtain ⟨hc, ha, hh⟩ := hl l (by simp)
    obtain ⟨h1, h2⟩ := stepLine_not_for root docText uri m mode l hc ha hh hmode
    rw [scanReport_cons]
    have h3 := ih (stepLine root docText (m, mode) l).1
      (stepLine root docText (m, mode) l).2
      (fun l' hl' => hl l' (by simp [hl'])) h2
    rw [h1] at h3
    exact h3

theorem scan_keeps01 (root docText uri : String) :
    ∀ (lines : List String) (m : FMap) (mode : Mode),
      (∀ l ∈ lines, addFor root uri l = false ∧ headerFor root uri l = false) →
      mode ≠ Mode.inBlock uri →
      (fmLookup m uri = none ∨ fmLookup m uri = some []) →
      (fmLookup (scanReport root docText (m, mode) lines).1 uri = none ∨
        fmLookup (scanReport root docText (m, mode) lines).1 uri = some []) ∧
      (scanReport root docText (m, mode) lines).2 ≠ Mode.inBlock uri := by
  intro lines
  induction lines with
  | nil => intro m mode _ hmode hm; exact ⟨hm, hmode⟩
  | cons l rest ih =>
    intro m mode hl hmode hm
    obtain ⟨ha, hh⟩ := hl l (by simp)
    obtain ⟨h1, h2⟩ := stepLine_keeps01 root docText uri m mode l ha hh hmode hm
    rw [scanReport_cons]
    exact ih (stepLine root docText (m, mode) l).1
      (stepLine root docText (m, mode) l).2
      (fun l' hl' => hl l' (by simp [hl'])) h2 h1

theorem scan_isSome (root docText uri : String) :
    ∀ (lines : List String) (st : FMap × Mode),
      (fmLookup st.1 uri).isSome = true →
      (fmLookup (scanReport root docText st lines).1 uri).isSome = true := by
  intro lines
  induction lines with
  | nil => intro st hm; exact hm
  | cons l rest ih =>
    intro st hm
    rw [scanReport_cons]
    exact ih _ (stepLine_isSome root docText uri st l hm)

theorem scan_nodup (root docText : String) :
    ∀ (lines : List String) (st : FMap × Mode),
      (st.1.map Prod.fst).Nodup →
      ((scanReport root docText st lines).1.map Prod.fst).Nodup := by
  intro lines
  induction lines with
  | nil => intro st h; exact h
  | cons l rest ih =>
    intro st h
    rw [scanReport_cons]
    exact ih _ (stepLine_nodup root docText st l h)

/-! ### The scan on grammar-shaped lines -/

/-- A correct-finding line, in scanning mode, resets the file's entry to the
empty list. -/
theorem stepLine_correct (root docText : String) (m : FMap) (path : String)
    (hp : ∀ c ∈ path.toList, dotChar c = true) :
    stepLine root docText (m, Mode.scanning) ("(" ++ path ++ corSuffix) =
      (fmSet m (mkUri root path) [], Mode.scanning) := by
  simp only [stepLine, parseCorrectFinding_eq path hp]

/-- An add-finding line, in scanning mode, appends exactly one diagnostic to
the entry of the file the line names. -/
theorem stepLine_add (root docText : String) (m : FMap)
    (path row col sym inc : String)
    (hpath : path.toList ≠ [] ∧ ∀ c ∈ path.toList, c ≠ ':')
    (hrow : row.toList ≠ [] ∧ ∀ c ∈ row.toList, c.isDigit = true)
    (hcol : col.toList ≠ [] ∧ ∀ c ∈ col.toList, c.isDigit = true)
    (hsym : sym.toList ≠ [] ∧ ∀ c ∈ sym.toList, jsSpace c = false)
    (hinc : IncSpecP inc) :
    stepLine root docText (m, Mode.scanning)
        (path ++ ":" ++ row ++ ":" ++ col ++ warnLit ++ sym ++ definedLit ++
          inc ++ msgTail) =
      (fmPush m (mkUri root path)
        (mkAddDiag docText
          ⟨path, natOfDigits row.toList, natOfDigits col.toList, sym, inc⟩),
       Mode.scanning) := by
  have hc : parseCorrectFinding (path ++ ":" ++ row ++ ":" ++ col ++ warnLit ++
      sym ++ definedLit ++ inc ++ msgTail) = none := by
    apply parseCorrectFinding_none_of_last _
      ((path ++ ":" ++ row ++ ":" ++ col ++ warnLit ++ sym ++ definedLit ++
        inc).toList ++ tailLit.toList) '.'
    · simp [strToList_append]
      rfl
    · decide
  simp only [stepLine, hc,
    parseAddFinding_eq path row col sym inc hpath hrow hcol hsym hinc]

/-- A removal-block header line, in scanning mode, ensures the file has an
entry (empty if absent) and enters the removal block. -/
theorem stepLine_header (root docText : String) (m : FMap) (path : String)
    (hp : ∀ c ∈ path.toList, dotChar c = true) :
    stepLine root docText (m, Mode.scanning) (path ++ removeSuffix) =
      ((if (fmLookup m (mkUri root path)).isSome then m
        else fmSet m (mkUri root path) []),
       Mode.inBlock (mkUri root path)) := by
  have hc : parseCorrectFinding (path ++ removeSuffix) = none := by
    apply parseCorrectFinding_none_of_last _
      (path.toList ++ " should remove these lines".toList) ':'
    · simp [strToList_append]
      rfl
    · decide
  simp only [stepLine, hc, parseAddFinding_none_header,
    parseRemoveHeader_eq path hp]

/-- Inside a removal block, a blank line returns to scanning. -/
theorem stepLine_blank (root docText : String) (m : FMap) (uri : String) :
    stepLine root docText (m, Mode.inBlock uri) "" = (m, Mode.scanning) := rfl

/-- Inside a removal block, a line matching the removal-entry grammar
appends exactly one diagnostic to the block's file. -/
theorem stepLine_entry (root docText : String) (m : FMap) (uri l : String)
    (r : RemM) (hne : l ≠ "") (hr : parseRemoveFinding l = some r) :
    stepLine root docText (m, Mode.inBlock uri) l =
      (fmPush m uri (mkRemoveDiag r), Mode.inBlock uri) := by
  simp only [stepLine, hne, if_false, hr]

/-- Inside a removal block, a nonblank line that does not match the
removal-entry grammar is ignored. -/
theorem stepLine_skip (root docText : String) (m : FMap) (uri l : String)
    (hne : l ≠ "") (hr : parseRemoveFinding l = none) :
    stepLine root docText (m, Mode.inBlock uri) l = (m, Mode.inBlock uri) := by
  simp only [stepLine, hne, if_false, hr]

/-! ### Debounce lemmas -/

theorem runInCalls_cons (s : SchedState) (t : String) (ts : List String) :
    runInCalls s (t :: ts) = runInCalls (runInStep s t) ts := rfl

theorem runInCalls_pending_true (ts : List String) :
    ∀ s : SchedState, s.pending = true → (runInCalls s ts).pending = true := by
  induction ts with
  | nil => intro s h; exact h
  | cons t ts ih =>
    intro s h
    rw [runInCalls_cons]
    apply ih
    unfold runInStep
    by_cases ht : t ≠ s.lastRevision
    · simp [ht]
    · simp [ht, h]

theorem runInCalls_pending_false_iff (ts : List String) :
    ∀ s : SchedState, s.pending = false →
      ((runInCalls s ts).pending = false ↔ ∀ t ∈ ts, t = s.lastRevision) := by
  induction ts with
  | nil => intro s h; simp [runInCalls, h]
  | cons t ts ih =>
    intro s h
    rw [runInCalls_cons]
    by_cases ht : t = s.lastRevision
    · have hstep : runInStep s t = s := by simp [runInStep, ht]
      rw [hstep, ih s h]
      simp [ht]
    · have hstep : runInStep s t = ⟨t, true⟩ := by simp [runInStep, ht]
      rw [hstep]
      have hp : (runInCalls ⟨t, true⟩ ts).pending = true :=
        runInCalls_pending_true ts _ rfl
      simp [hp, ht]

theorem runInCalls_lastRev (ts : List String) :
    ∀ (s : SchedState) (h : ts ≠ []),
      (runInCalls s ts).lastRevision = ts.getLast h := by
  induction ts with
  | nil => intro s h; exact absurd rfl h
  | cons t ts ih =>
    intro s h
    cases ts with
    | nil =>
      simp only [runInCalls, List.foldl_cons, List.foldl_nil, List.getLast_singleton]
      unfold runInStep
      by_cases ht : t = s.lastRevision
      · simp [ht]
      · simp [ht]
    | cons t' ts' =>
      rw [runInCalls_cons, List.getLast_cons (by simp)]
      exact ih _ (by simp)

/-! ### Claim theorems: Run Scheduler (C4, C5, C6) -/

/-- Claim C4 (code bug): `run` assigns `this._lastRevision = revision`
*before* awaiting `_runInternal`; a rejected external command therefore
leaves the fingerprint equal to the failed run's text (not to its previous
value), and the next `run(force=false)` with the same document text skips
instead of invoking the Command Runner again.  At the concrete failing
input: a fresh analyzer (fingerprint `""`), document text `"int main();"`,
external command fails — afterwards the fingerprint is `"int main();"`,
the error was raised, and the retry is skipped. -/
theorem run_failure_fingerprint_bug :
    ((run ⟨""⟩ false "int main();" true).1.lastRevision = "int main();") ∧
    ((run ⟨""⟩ false "int main();" true).2.2 = true) ∧
    ((run (run ⟨""⟩ false "int main();" true).1 false "int main();" false).2.1 =
      false) := by
  decide

/-- Claim C5: `run(force=false)` twice in a row with unchanged document
text invokes the pipeline at most once — in fact the second call never
invokes it, whatever the first run's outcome — while `run(force=true)`
always invokes it. -/
theorem run_skip_unchanged :
    (∀ (s : RunState) (text : String) (f1 f2 : Bool),
      (run (run s false text f1).1 false text f2).2.1 = false) ∧
    (∀ (s : RunState) (text : String) (f : Bool),
      (run s true text f).2.1 = true) := by
  constructor
  · intro s text f1 f2
    by_cases h : text = s.lastRevision
    · have h1 : run s false text f1 = (s, false, false) := by simp [run, h]
      rw [h1]
      simp [run, h]
    · have h1 : run s false text f1 = (⟨text⟩, true, f1) := by simp [run, h]
      rw [h1]
      simp [run]
  · intro s text f
    simp [run]

/-- Claim C6 counterexample: a burst of `runAfterDelay` calls does *not*
always produce exactly one eventual pipeline invocation.  On a fresh
analyzer (fingerprint `""`, no pending timer) whose document text is the
empty string, the call skips before ever arming a timer, so the burst
produces zero invocations. -/
theorem runIn_zero_invocations_cex :
    eventualInvocations (runInCalls ⟨"", false⟩ [""]) = 0 ∧
    eventualInvocations (runInCalls ⟨"", false⟩ [""]) ≠ 1 := by
  decide

/-- Claim C6 as amended: `runIn` keeps at most one pending timer; a call
whose document text differs from the stored fingerprint updates the
fingerprint and replaces the pending timer, while a call whose text equals
the fingerprint is skipped and leaves any pending timer in place.  A burst
of calls from a quiescent state therefore produces at most one eventual
pipeline invocation — exactly one unless every call saw the already-stored
text, in which case there are none — and the fingerprint after the burst
equals the document text at the final call. -/
theorem runIn_debounce_amended (r : String) (ts : List String) (h : ts ≠ []) :
    eventualInvocations (runInCalls ⟨r, false⟩ ts) ≤ 1 ∧
    eventualInvocations (runInCalls ⟨r, false⟩ ts) =
      (if ts.all (· == r) then 0 else 1) ∧
    (runInCalls ⟨r, false⟩ ts).lastRevision = ts.getLast h := by
  refine ⟨?_, ?_, runInCalls_lastRev ts _ h⟩
  · unfold eventualInvocations
    by_cases hp : (runInCalls ⟨r, false⟩ ts).pending <;> simp [hp]
  · have hiff := runInCalls_pending_false_iff ts ⟨r, false⟩ rfl
    by_cases hall : ∀ t ∈ ts, t = r
    · have hp : (runInCalls ⟨r, false⟩ ts).pending = false := hiff.mpr hall
      have : ts.all (· == r) = true := by
        simp only [List.all_eq_true, beq_iff_eq]
        exact hall
      simp [eventualInvocations, hp, this]
    · have hp : (runInCalls ⟨r, false⟩ ts).pending = true := by
        cases hpc : (runInCalls ⟨r, false⟩ ts).pending
        · exact absurd (hiff.mp hpc) hall
        · rfl
      have hfalse : ¬ts.all (· == r) = true := by
        intro hb
        exact hall fun t ht => by simpa using List.all_eq_true.mp hb t ht
      have : ts.all (· == r) = false := Bool.eq_false_iff.mpr hfalse
      simp [eventualInvocations, hp, this]

/-- Witness for C6's amended claim: two calls with text `"a"` on a fresh
analyzer — the first arms the timer, the second is skipped; one eventual
invocation and fingerprint `"a"`. -/
theorem runIn_debounce_amended_witness :
    eventualInvocations (runInCalls ⟨"", false⟩ ["a", "a"]) ≤ 1 ∧
    eventualInvocations (runInCalls ⟨"", false⟩ ["a", "a"]) =
      (if ["a", "a"].all (· == "") then 0 else 1) ∧
    (runInCalls ⟨"", false⟩ ["a", "a"]).lastRevision =
      ["a", "a"].getLast (by decide) :=
  runIn_debounce_amended "" ["a", "a"] (by decide)

/-! ### Claim theorems: Fix Synthesizer (C7, C8) -/

/-- Claim C8 counterexample: the add-kind fix path does throw on a
malformed message.  `createQuickFixForAddition` destructures the result of
`message.match(...)` through a non-null assertion; for the message
`"garbage"` the match is `null` and the destructuring raises a `TypeError`
(modelled as `none`) instead of degrading to a generic fix. -/
theorem addFix_throws_cex :
    createQuickFixForAddition "" "garbage" = none := by
  decide

/-- Claim C8 as amended: the remove-kind fix path is total — a message that
fails the grammar `^Unused #include (.+)\.$` only degrades the label to the
generic `"Remove header"`, with the same one-line deletion edit — while the
add-kind path requires its message grammar and raises (returns `none`,
modelling the `TypeError` from the non-null assertion) whenever the message
does not match. -/
theorem fixSynthesis_amended :
    (∀ (msg : String) (sl sc : Int), parseRemoveMsg msg = none →
      createQuickFixForRemoval msg sl sc =
        { title := "Remove header", delStartLine := sl, delStartChar := sc,
          delEndLine := sl + 1, delEndChar := 0 }) ∧
    (∀ (docText msg : String), extractHeader msg.toList = none →
      createQuickFixForAddition docText msg = none) := by
  constructor
  · intro msg sl sc h
    simp [createQuickFixForRemoval, h]
  · intro docText msg h
    unfold createQuickFixForAddition
    rw [h]
    rfl

/-- Witness for C8's amended claim at a concrete malformed message. -/
theorem fixSynthesis_amended_witness :
    createQuickFixForRemoval "garbage" 3 0 =
      { title := "Remove header", delStartLine := 3, delStartChar := 0,
        delEndLine := 4, delEndChar := 0 } ∧
    createQuickFixForAddition "" "garbage" = none := by
  constructor
  · exact (fixSynthesis_amended.1 "garbage" 3 0 (by decide)).trans (by norm_num)
  · exact fixSynthesis_amended.2 "" "garbage" (by decide)

theorem tryHeaderAt_eq (inc : String) (hinc : IncSpecP inc) :
    tryHeaderAt (definedLit.toList ++ (inc.toList ++ msgTail.toList)) = some inc := by
  have h1 : expectSeq definedLit.toList (definedLit.toList ++
      (inc.toList ++ msgTail.toList)) = some (inc.toList ++ msgTail.toList) :=
    expectSeq_append _ _
  have h2 := parseIncSpec_of inc msgTail.toList hinc
  have h3 : expectSeq tailLit.toList msgTail.toList = some ['.'] := by
    have hm : msgTail.toList = tailLit.toList ++ ['.'] := rfl
    rw [hm]
    exact expectSeq_append _ _
  have hd : dotChar '.' = true := by decide
  simp only [tryHeaderAt, h1, h2, h3, hd, if_true]
  rfl

theorem extractHeader_append (pre rest : List Char) (hd : String)
    (hpre : ∀ c ∈ pre, c ≠ ' ') (h : tryHeaderAt rest = some hd)
    (hne : rest ≠ []) : extractHeader (pre ++ rest) = some hd := by
  induction pre with
  | nil =>
    cases rest with
    | nil => exact absurd rfl hne
    | cons c cs => simp only [List.nil_append, extractHeader, h]
  | cons p ps ih =>
    have hp : p ≠ ' ' := hpre p (by simp)
    obtain ⟨t, htl⟩ : ∃ t, definedLit.toList = ' ' :: t := ⟨_, rfl⟩
    have hth : tryHeaderAt (p :: (ps ++ rest)) = none := by
      unfold tryHeaderAt
      rw [htl, expectSeq_head_ne _ _ _ _ (Ne.symm hp)]
    simp only [List.cons_append, extractHeader, List.append_eq]
    rw [hth]
    exact ih fun c hc => hpre c (by simp [hc])

/-- Claim C7: for every document text and every add-kind message of the
defining grammar, the synthesized fix inserts exactly the text
`#include <spec>` followed by a blank line, at the offset right after the
prologue matched by `PROLOGUE_PATTERN` (the longest prefix of guard /
comment / whitespace / include lines the pattern accepts), and on an empty
document that offset is 0. -/
theorem addFix_insertion (docText pre inc : String)
    (hpre : ∀ c ∈ pre.toList, c ≠ ' ') (hinc : IncSpecP inc) :
    createQuickFixForAddition docText (pre ++ definedLit ++ inc ++ msgTail) =
      some { title := "Include header " ++ inc,
             insertOffset := prologueLen docText,
             insertText := "#include " ++ inc ++ "\n\n" } ∧
    prologueLen "" = 0 := by
  constructor
  · have hmsg : (pre ++ definedLit ++ inc ++ msgTail).toList =
        pre.toList ++ (definedLit.toList ++ (inc.toList ++ msgTail.toList)) := by
      simp [strToList_append]
    have hne : definedLit.toList ++ (inc.toList ++ msgTail.toList) ≠ [] := by
      intro h
      rw [List.append_eq_nil] at h
      exact absurd h.1 (by decide)
    unfold createQuickFixForAddition
    rw [hmsg, extractHeader_append _ _ inc hpre (tryHeaderAt_eq inc hinc) hne]
    rfl
  · rfl

/-- Witness for C7 on the example message and an empty document. -/
theorem addFix_insertion_witness :
    createQuickFixForAddition ""
        ("std::vector" ++ definedLit ++ "<vector>" ++ msgTail) =
      some { title := "Include header " ++ "<vector>",
             insertOffset := prologueLen "",
             insertText := "#include " ++ "<vector>" ++ "\n\n" } ∧
    prologueLen "" = 0 :=
  addFix_insertion "" "std::vector" "<vector>" (by decide)
    (Or.inr ⟨"vector", by decide, by decide, by decide⟩)

/-- Sanity: on a guard-plus-include prologue the match ends right after the
last prologue line (10 + 10 + 13 characters). -/
theorem prologueLen_sample :
    prologueLen "#ifndef A\n#define A\n#include <x>\nint y;" = 33 := by
  decide

/-! ### Claim theorems: Report Parser (C1, C2, C9, C3, C10) -/

/-- The range of an add diagnostic always starts at the converted (0-based)
reported position, whichever token pattern matched. -/
theorem mkAddDiag_start (docText : String) (a : AddM) :
    (mkAddDiag docText a).startLine = (a.row : Int) - 1 ∧
    (mkAddDiag docText a).startChar = (a.col : Int) - 1 := by
  unfold mkAddDiag getTokenRange
  cases tokenLen (docText.toList.drop
      (offsetAt docText ((a.row : Int) - 1) ((a.col : Int) - 1))) <;> simp

/-- Claim C1: every report line of the add-finding grammar (1-based line
and column) makes the scan append exactly one `add` diagnostic to the
findings of the path joined against the workspace root, anchored at the
0-based position `(line-1, col-1)`; in particular the example line for
`foo.cpp` at `10:5` with include `<vector>` yields exactly one finding for
`foo.cpp` at `(9,4)` whose message carries `<vector>`. -/
theorem addFinding_grammar :
    (∀ (root docText : String) (m : FMap) (rest : List String)
        (path row col sym inc : String),
      (path.toList ≠ [] ∧ ∀ c ∈ path.toList, c ≠ ':') →
      (row.toList ≠ [] ∧ ∀ c ∈ row.toList, c.isDigit = true) →
      (col.toList ≠ [] ∧ ∀ c ∈ col.toList, c.isDigit = true) →
      1 ≤ natOfDigits row.toList → 1 ≤ natOfDigits col.toList →
      (sym.toList ≠ [] ∧ ∀ c ∈ sym.toList, jsSpace c = false) →
      IncSpecP inc →
      scanReport root docText (m, Mode.scanning)
          ((path ++ ":" ++ row ++ ":" ++ col ++ warnLit ++ sym ++ definedLit ++
            inc ++ msgTail) :: rest) =
        scanReport root docText
          (fmPush m (mkUri root path)
            (mkAddDiag docText
              ⟨path, natOfDigits row.toList, natOfDigits col.toList, sym, inc⟩),
           Mode.scanning) rest ∧
      (mkAddDiag docText
          ⟨path, natOfDigits row.toList, natOfDigits col.toList, sym,
           inc⟩).startLine = (natOfDigits row.toList : Int) - 1 ∧
      (mkAddDiag docText
          ⟨path, natOfDigits row.toList, natOfDigits col.toList, sym,
           inc⟩).startChar = (natOfDigits col.toList : Int) - 1 ∧
      (mkAddDiag docText
          ⟨path, natOfDigits row.toList, natOfDigits col.toList, sym,
           inc⟩).message = sym ++ definedLit ++ inc ++ msgTail ∧
      (mkAddDiag docText
          ⟨path, natOfDigits row.toList, natOfDigits col.toList, sym,
           inc⟩).code = "add") ∧
    (fmLookup
        (parseReport "ws" ""
          ["foo.cpp:10:5: warning: std::vector" ++ definedLit ++ "<vector>" ++
            msgTail])
        (mkUri "ws" "foo.cpp") =
      some [mkAddDiag "" ⟨"foo.cpp", 10, 5, "std::vector", "<vector>"⟩] ∧
     (mkAddDiag "" ⟨"foo.cpp", 10, 5, "std::vector", "<vector>"⟩).startLine = 9 ∧
     (mkAddDiag "" ⟨"foo.cpp", 10, 5, "std::vector", "<vector>"⟩).startChar = 4 ∧
     (mkAddDiag "" ⟨"foo.cpp", 10, 5, "std::vector", "<vector>"⟩).message =
       "std::vector" ++ definedLit ++ "<vector>" ++ msgTail) := by
  constructor
  · intro root docText m rest path row col sym inc hpath hrow hcol _ _ hsym hinc
    refine ⟨?_, (mkAddDiag_start _ _).1, (mkAddDiag_start _ _).2, rfl, rfl⟩
    rw [scanReport_cons,
      stepLine_add root docText m path row col sym inc hpath hrow hcol hsym hinc]
  · refine ⟨?_, by decide, by decide, rfl⟩
    decide

/-- Witness for C1's universal part on the example line. -/
theorem addFinding_grammar_witness :
    scanReport "ws" "" ([], Mode.scanning)
        (("foo.cpp" ++ ":" ++ "10" ++ ":" ++ "5" ++ warnLit ++ "std::vector" ++
          definedLit ++ "<vector>" ++ msgTail) :: []) =
      scanReport "ws" ""
        (fmPush [] (mkUri "ws" "foo.cpp")
          (mkAddDiag ""
            ⟨"foo.cpp", natOfDigits "10".toList, natOfDigits "5".toList,
             "std::vector", "<vector>"⟩),
         Mode.scanning) [] ∧
    (mkAddDiag ""
        ⟨"foo.cpp", natOfDigits "10".toList, natOfDigits "5".toList,
         "std::vector", "<vector>"⟩).startLine =
      (natOfDigits "10".toList : Int) - 1 ∧
    (mkAddDiag ""
        ⟨"foo.cpp", natOfDigits "10".toList, natOfDigits "5".toList,
         "std::vector", "<vector>"⟩).startChar =
      (natOfDigits "5".toList : Int) - 1 ∧
    (mkAddDiag ""
        ⟨"foo.cpp", natOfDigits "10".toList, natOfDigits "5".toList,
         "std::vector", "<vector>"⟩).message =
      "std::vector" ++ definedLit ++ "<vector>" ++ msgTail ∧
    (mkAddDiag ""
        ⟨"foo.cpp", natOfDigits "10".toList, natOfDigits "5".toList,
         "std::vector", "<vector>"⟩).code = "add" :=
  addFinding_grammar.1 "ws" "" [] [] "foo.cpp" "10" "5" "std::vector" "<vector>"
    (by decide) (by decide) (by decide) (by decide) (by decide) (by decide)
    (Or.inr ⟨"vector", by decide, by decide, by decide⟩)

/-- Claim C2: inside a removal block, every line of the removal-entry
grammar appends exactly one `remove` diagnostic anchored at 0-based line
`start - 1`, column 0 (the reported end line never enters the result), and
every other nonblank line is ignored without error; in particular the
example block for `foo.cpp` with entry `- #include "bar.h"  // lines 3-3`
yields exactly one finding anchored at line 2 with spec `"bar.h"`. -/
theorem removeFinding_block :
    (∀ (root docText : String) (m : FMap) (uri : String) (ws1 ws2 : List Char)
        (inc s : String) (tail : List Char),
      (∀ c ∈ ws1, jsSpace c = true) → (∀ c ∈ ws2, jsSpace c = true) →
      IncSpecP inc →
      (s.toList ≠ [] ∧ ∀ c ∈ s.toList, c.isDigit = true) →
      1 ≤ natOfDigits s.toList →
      (∃ d rest, tail = d :: rest ∧ d.isDigit = true) →
      ∃ r : RemM,
        parseRemoveFinding ("- #include" ++ String.mk ws1 ++ inc ++
            String.mk ws2 ++ "// lines " ++ s ++ "-" ++ String.mk tail) =
          some r ∧
        r.rowStart = natOfDigits s.toList ∧ r.includeSpec = inc ∧
        stepLine root docText (m, Mode.inBlock uri)
            ("- #include" ++ String.mk ws1 ++ inc ++ String.mk ws2 ++
              "// lines " ++ s ++ "-" ++ String.mk tail) =
          (fmPush m uri (mkRemoveDiag r), Mode.inBlock uri) ∧
        (mkRemoveDiag r).startLine = (natOfDigits s.toList : Int) - 1 ∧
        (mkRemoveDiag r).startChar = 0 ∧
        (mkRemoveDiag r).code = "remove") ∧
    (∀ (root docText : String) (m : FMap) (uri l : String),
      l ≠ "" → parseRemoveFinding l = none →
      stepLine root docText (m, Mode.inBlock uri) l = (m, Mode.inBlock uri)) ∧
    (fmLookup
        (parseReport "ws" ""
          ["foo.cpp" ++ removeSuffix, "- #include \"bar.h\"  // lines 3-3", ""])
        (mkUri "ws" "foo.cpp") =
      some [mkRemoveDiag ⟨"#include \"bar.h\"", "\"bar.h\"", 3, 3⟩] ∧
     (mkRemoveDiag ⟨"#include \"bar.h\"", "\"bar.h\"", 3, 3⟩).startLine = 2 ∧
     (mkRemoveDiag ⟨"#include \"bar.h\"", "\"bar.h\"", 3, 3⟩).startChar = 0 ∧
     (mkRemoveDiag ⟨"#include \"bar.h\"", "\"bar.h\"", 3, 3⟩).message =
       "Unused #include \"bar.h\".") := by
  refine ⟨?_, ?_, ?_⟩
  · intro root docText m uri ws1 ws2 inc s tail hws1 hws2 hinc hs _ he
    obtain ⟨rend, hps⟩ := parseRemoveFinding_eq ws1 ws2 inc s tail hws1 hws2 hinc hs he
    have hlnil : ("- #include" ++ String.mk ws1 ++ inc ++ String.mk ws2 ++
        "// lines " ++ s ++ "-" ++ String.mk tail) ≠ "" := by
      intro hz
      have h0 : ("- #include" ++ String.mk ws1 ++ inc ++ String.mk ws2 ++
          "// lines " ++ s ++ "-" ++ String.mk tail).toList = [] := by
        rw [hz]
        rfl
      simp [strToList_append] at h0
    refine ⟨⟨String.mk ("#include".toList ++ ws1 ++ inc.toList), inc,
      natOfDigits s.toList, rend⟩, hps, rfl, rfl, ?_, rfl, rfl, rfl⟩
    exact stepLine_entry root docText m uri _ _ hlnil hps
  · intro root docText m uri l hne hnone
    exact stepLine_skip root docText m uri l hne hnone
  · refine ⟨?_, by decide, rfl, rfl⟩
    decide

/-- Witness for C2's universal parts on the example entry line. -/
theorem removeFinding_block_witness :
    (∃ r : RemM,
      parseRemoveFinding ("- #include" ++ String.mk [' '] ++ "\"bar.h\"" ++
          String.mk [' ', ' '] ++ "// lines " ++ "3" ++ "-" ++
          String.mk ['3']) = some r ∧
      r.rowStart = natOfDigits "3".toList ∧ r.includeSpec = "\"bar.h\"" ∧
      stepLine "ws" "" ([], Mode.inBlock (mkUri "ws" "foo.cpp"))
          ("- #include" ++ String.mk [' '] ++ "\"bar.h\"" ++
            String.mk [' ', ' '] ++ "// lines " ++ "3" ++ "-" ++
            String.mk ['3']) =
        (fmPush [] (mkUri "ws" "foo.cpp") (mkRemoveDiag r),
         Mode.inBlock (mkUri "ws" "foo.cpp")) ∧
      (mkRemoveDiag r).startLine = (natOfDigits "3".toList : Int) - 1 ∧
      (mkRemoveDiag r).startChar = 0 ∧
      (mkRemoveDiag r).code = "remove") ∧
    stepLine "ws" "" ([], Mode.inBlock (mkUri "ws" "foo.cpp")) "not an entry" =
      ([], Mode.inBlock (mkUri "ws" "foo.cpp")) :=
  ⟨removeFinding_block.1 "ws" "" [] (mkUri "ws" "foo.cpp") [' '] [' ', ' ']
      "\"bar.h\"" "3" ['3'] (by decide) (by decide)
      (Or.inl ⟨"bar.h", by decide, by decide, by decide⟩) (by decide) (by decide)
      ⟨'3', [], rfl, by decide⟩,
   removeFinding_block.2.1 "ws" "" [] (mkUri "ws" "foo.cpp") "not an entry"
      (by decide) (by decide)⟩

/-- Claim C9: a file identity that no line of the report mentions — as an
add-finding, a removal-block header, or a correct marker — keeps exactly
its previously published diagnostics: the publish loop runs only over the
file identities of the findings map, which never acquires such a key. -/
theorem untouched_files_frame (root docText : String) (lines : List String)
    (store : FMap) (uri : String)
    (h : ∀ l ∈ lines, correctFor root uri l = false ∧ addFor root uri l = false ∧
      headerFor root uri l = false) :
    fmLookup (publish store (parseReport root docText lines)) uri =
      fmLookup store uri := by
  have h1 := scan_not_for root docText uri lines [] Mode.scanning h (by simp)
  have h2 : fmLookup (parseReport root docText lines) uri = none := by
    have := h1.1
    rwa [show fmLookup ([] : FMap) uri = none from rfl] at this
  exact publish_lookup_not_mem _ store uri ((fmLookup_none_iff _ _).mp h2)

/-- Witness for C9: a report carrying one add-finding for `foo.cpp` leaves
the previously published diagnostics of `bar.cpp` untouched. -/
theorem untouched_files_frame_witness :
    fmLookup
        (publish
          [(mkUri "ws" "bar.cpp",
            [mkRemoveDiag ⟨"#include \"x.h\"", "\"x.h\"", 3, 3⟩])]
          (parseReport "ws" ""
            ["foo.cpp:10:5: warning: std::vector" ++ definedLit ++ "<vector>" ++
              msgTail]))
        (mkUri "ws" "bar.cpp") =
      fmLookup
        [(mkUri "ws" "bar.cpp",
          [mkRemoveDiag ⟨"#include \"x.h\"", "\"x.h\"", 3, 3⟩])]
        (mkUri "ws" "bar.cpp") :=
  untouched_files_frame "ws" ""
    ["foo.cpp:10:5: warning: std::vector" ++ definedLit ++ "<vector>" ++ msgTail]
    [(mkUri "ws" "bar.cpp", [mkRemoveDiag ⟨"#include \"x.h\"", "\"x.h\"", 3, 3⟩])]
    (mkUri "ws" "bar.cpp") (by decide)

/-- Claim C3: a report containing the correct-marker line for a path (at
the top level of the scan) with no later add-finding or removal-block
header for that path ends the run with the empty findings list for that
file, and the publish loop then *deletes* the file's entry from the
diagnostics store — publishing an empty set is clearing. -/
theorem correctMarker_clears (root docText : String) (store : FMap)
    (pre post : List String) (path : String)
    (hp : ∀ c ∈ path.toList, dotChar c = true)
    (hpre : (scanReport root docText ([], Mode.scanning) pre).2 = Mode.scanning)
    (hpost : ∀ l ∈ post, addFor root (mkUri root path) l = false ∧
      headerFor root (mkUri root path) l = false) :
    fmLookup
        (parseReport root docText (pre ++ ("(" ++ path ++ corSuffix) :: post))
        (mkUri root path) = some [] ∧
    fmLookup
        (publish store
          (parseReport root docText
            (pre ++ ("(" ++ path ++ corSuffix) :: post)))
        (mkUri root path) = none := by
  have hE : parseReport root docText (pre ++ ("(" ++ path ++ corSuffix) :: post) =
      (scanReport root docText
        (fmSet (scanReport root docText ([], Mode.scanning) pre).1
          (mkUri root path) [], Mode.scanning) post).1 := by
    unfold parseReport
    rw [scanReport_append]
    have heta : scanReport root docText ([], Mode.scanning) pre =
        ((scanReport root docText ([], Mode.scanning) pre).1, Mode.scanning) := by
      nth_rewrite 3 [← hpre]
      rfl
    rw [heta, scanReport_cons, stepLine_correct root docText _ path hp]
  have hstart : fmLookup
      (fmSet (scanReport root docText ([], Mode.scanning) pre).1
        (mkUri root path) []) (mkUri root path) = some [] :=
    fmLookup_fmSet_self _ _ _
  have h01 := scan_keeps01 root docText (mkUri root path) post
    (fmSet (scanReport root docText ([], Mode.scanning) pre).1
      (mkUri root path) [])
    Mode.scanning hpost (by simp) (Or.inr hstart)
  have hsome := scan_isSome root docText (mkUri root path) post
    (fmSet (scanReport root docText ([], Mode.scanning) pre).1
      (mkUri root path) [], Mode.scanning)
    (by rw [hstart]; rfl)
  have hfinal : fmLookup
      (scanReport root docText
        (fmSet (scanReport root docText ([], Mode.scanning) pre).1
          (mkUri root path) [], Mode.scanning) post).1 (mkUri root path) =
      some [] := by
    rcases h01.1 with hnone | hempty
    · rw [hnone] at hsome
      simp at hsome
    · exact hempty
  have hnodup : ((parseReport root docText
      (pre ++ ("(" ++ path ++ corSuffix) :: post)).map Prod.fst).Nodup := by
    unfold parseReport
    exact scan_nodup root docText _ ([], Mode.scanning) (by simp)
  rw [hE]
  refine ⟨hfinal, ?_⟩
  rw [← hE]
  exact publish_lookup_empty _ store (mkUri root path) (hE ▸ hfinal) hnodup

/-- Witness for C3: a one-line report marking `foo.cpp` correct clears a
previously published diagnostic set for it. -/
theorem correctMarker_clears_witness :
    fmLookup
        (parseReport "ws" "" ([] ++ ("(" ++ "foo.cpp" ++ corSuffix) :: []))
        (mkUri "ws" "foo.cpp") = some [] ∧
    fmLookup
        (publish
          [(mkUri "ws" "foo.cpp",
            [mkRemoveDiag ⟨"#include \"x.h\"", "\"x.h\"", 3, 3⟩])]
          (parseReport "ws" "" ([] ++ ("(" ++ "foo.cpp" ++ corSuffix) :: [])))
        (mkUri "ws" "foo.cpp") = none :=
  correctMarker_clears "ws" ""
    [(mkUri "ws" "foo.cpp", [mkRemoveDiag ⟨"#include \"x.h\"", "\"x.h\"", 3, 3⟩])]
    [] [] "foo.cpp" (by decide) (by decide) (by decide)

theorem scan_block_skip (root docText : String) (block : List String) :
    ∀ (m : FMap) (u : String),
      (∀ l ∈ block, l ≠ "" ∧ parseRemoveFinding l = none) →
      scanReport root docText (m, Mode.inBlock u) block = (m, Mode.inBlock u) := by
  induction block with
  | nil => intro m u _; rfl
  | cons l rest ih =>
    intro m u h
    obtain ⟨hne, hnone⟩ := h l (by simp)
    rw [scanReport_cons, stepLine_skip root docText m u l hne hnone]
    exact ih m u fun l' hl' => h l' (by simp [hl'])

/-- Claim C10 counterexample: a bare removal header does *not* always clear
the file.  If the report carries an add-finding for `foo.cpp` before the
bare header, the header only ensures the (already nonempty) entry exists:
the run records one finding for `foo.cpp` — not an empty list — and the
publish loop sets the nonempty list instead of deleting the entry. -/
theorem bareHeader_not_clearing_cex :
    fmLookup
        (parseReport "ws" ""
          ["foo.cpp:10:5: warning: std::vector" ++ definedLit ++ "<vector>" ++
            msgTail,
           "foo.cpp" ++ removeSuffix, "- junk", ""])
        (mkUri "ws" "foo.cpp") =
      some [mkAddDiag "" ⟨"foo.cpp", 10, 5, "std::vector", "<vector>"⟩] ∧
    fmLookup
        (parseReport "ws" ""
          ["foo.cpp:10:5: warning: std::vector" ++ definedLit ++ "<vector>" ++
            msgTail,
           "foo.cpp" ++ removeSuffix, "- junk", ""])
        (mkUri "ws" "foo.cpp") ≠ some [] ∧
    (fmLookup
        (publish []
          (parseReport "ws" ""
            ["foo.cpp:10:5: warning: std::vector" ++ definedLit ++ "<vector>" ++
              msgTail,
             "foo.cpp" ++ removeSuffix, "- junk", ""]))
        (mkUri "ws" "foo.cpp")).isSome = true := by
  refine ⟨by decide, by decide, by decide⟩

/-- Claim C10 as amended: a removal-block header whose block contains no
line matching the removal-entry grammar records the file in the findings
map, creating an empty list when the file has no *other* findings in the
report; provided no other line of the report adds findings for the file
(no add-finding, no other removal header), the file ends the run with the
empty list and its previously published diagnostics are deleted. -/
theorem bareHeader_empty_clears (root docText : String) (store : FMap)
    (pre block post : List String) (path : String)
    (hp : ∀ c ∈ path.toList, dotChar c = true)
    (hpre2 : (scanReport root docText ([], Mode.scanning) pre).2 = Mode.scanning)
    (hpre : ∀ l ∈ pre, addFor root (mkUri root path) l = false ∧
      headerFor root (mkUri root path) l = false)
    (hblock : ∀ l ∈ block, l ≠ "" ∧ parseRemoveFinding l = none)
    (hpost : ∀ l ∈ post, addFor root (mkUri root path) l = false ∧
      headerFor root (mkUri root path) l = false) :
    fmLookup
        (parseReport root docText
          (pre ++ (path ++ removeSuffix) :: (block ++ "" :: post)))
        (mkUri root path) = some [] ∧
    fmLookup
        (publish store
          (parseReport root docText
            (pre ++ (path ++ removeSuffix) :: (block ++ "" :: post))))
        (mkUri root path) = none := by
  have h01pre := scan_keeps01 root docText (mkUri root path) pre [] Mode.scanning
    hpre (by simp) (Or.inl rfl)
  have hmh : fmLookup
      (if (fmLookup (scanReport root docText ([], Mode.scanning) pre).1
            (mkUri root path)).isSome
       then (scanReport root docText ([], Mode.scanning) pre).1
       else fmSet (scanReport root docText ([], Mode.scanning) pre).1
              (mkUri root path) []) (mkUri root path) = some [] := by
    rcases h01pre.1 with hnone | hempty
    · rw [hnone]
      simp only [Option.isSome_none, Bool.false_eq_true, if_false]
      exact fmLookup_fmSet_self _ _ _
    · rw [hempty]
      simp only [Option.isSome_some, if_true]
      exact hempty
  have hE : parseReport root docText
      (pre ++ (path ++ removeSuffix) :: (block ++ "" :: post)) =
      (scanReport root docText
        ((if (fmLookup (scanReport root docText ([], Mode.scanning) pre).1
              (mkUri root path)).isSome
          then (scanReport root docText ([], Mode.scanning) pre).1
          else fmSet (scanReport root docText ([], Mode.scanning) pre).1
                 (mkUri root path) []), Mode.scanning) post).1 := by
    unfold parseReport
    rw [scanReport_append]
    have heta : scanReport root docText ([], Mode.scanning) pre =
        ((scanReport root docText ([], Mode.scanning) pre).1, Mode.scanning) := by
      nth_rewrite 3 [← hpre2]
      rfl
    rw [heta, scanReport_cons, stepLine_header root docText _ path hp,
      scanReport_append, scan_block_skip root docText block _ _ hblock,
      scanReport_cons, stepLine_blank]
  have hsome := scan_isSome root docText (mkUri root path) post
    ((if (fmLookup (scanReport root docText ([], Mode.scanning) pre).1
          (mkUri root path)).isSome
      then (scanReport root docText ([], Mode.scanning) pre).1
      else fmSet (scanReport root docText ([], Mode.scanning) pre).1
             (mkUri root path) []), Mode.scanning)
    (by rw [hmh]; rfl)
  have h01 := scan_keeps01 root docText (mkUri root path) post _ Mode.scanning
    hpost (by simp) (Or.inr hmh)
  have hfinal : fmLookup
      (scanReport root docText
        ((if (fmLookup (scanReport root docText ([], Mode.scanning) pre).1
              (mkUri root path)).isSome
          then (scanReport root docText ([], Mode.scanning) pre).1
          else fmSet (scanReport root docText ([], Mode.scanning) pre).1
                 (mkUri root path) []), Mode.scanning) post).1
      (mkUri root path) = some [] := by
    rcases h01.1 with hnone | hempty
    · rw [hnone] at hsome
      simp at hsome
    · exact hempty
  have hnodup : ((parseReport root docText
      (pre ++ (path ++ removeSuffix) :: (block ++ "" :: post))).map
        Prod.fst).Nodup := by
    unfold parseReport
    exact scan_nodup root docText _ ([], Mode.scanning) (by simp)
  refine ⟨hE ▸ hfinal, ?_⟩
  exact publish_lookup_empty _ store (mkUri root path) (hE ▸ hfinal) hnodup

/-- Witness for C10's amended claim: a report consisting of the bare header
for `foo.cpp` followed by a non-matching block line and the terminating
blank line clears the previously published set for `foo.cpp`. -/
theorem bareHeader_empty_clears_witness :
    fmLookup
        (parseReport "ws" ""
          ([] ++ ("foo.cpp" ++ removeSuffix) :: (["- junk"] ++ "" :: [])))
        (mkUri "ws" "foo.cpp") = some [] ∧
    fmLookup
        (publish
          [(mkUri "ws" "foo.cpp",
            [mkRemoveDiag ⟨"#include \"x.h\"", "\"x.h\"", 3, 3⟩])]
          (parseReport "ws" ""
            ([] ++ ("foo.cpp" ++ removeSuffix) :: (["- junk"] ++ "" :: []))))
        (mkUri "ws" "foo.cpp") = none :=
  bareHeader_empty_clears "ws" ""
    [(mkUri "ws" "foo.cpp", [mkRemoveDiag ⟨"#include \"x.h\"", "\"x.h\"", 3, 3⟩])]
    [] ["- junk"] [] "foo.cpp" (by decide) (by decide) (by decide) (by decide)
    (by decide)

end Iwyu
